import Mathlib

/-!
Verification development for the Makhfouz/KOHighlights export reconciliation
engine (`src/anki_connect.py`, `src/anki_integration.py`).

The Python functions are shallowly embedded as executable Lean definitions:

* Python `dict`s (insertion ordered, unique keys) become association lists
  `List (String × String)` manipulated through `dget` / `dset` / `dmem`,
  which mirror `d.get(k, default)`, `d[k] = v` and `k in d`.
* `str.strip()` becomes `pyStrip` (drop leading and trailing whitespace).
* The external AnkiConnect calls made by `bulk_add_highlights`
  (`canAddNotes`, `addNotes`) are inputs: an oracle assigns each batch its
  remote response.  The model field list (`modelFieldNames`) is an input list.
* Highlight records are string-valued dictionaries, matching the records
  produced by `anki_integration.py` (all canonical fields are strings).
* The note wrapper fields that are constant across records (`deckName`,
  `modelName`, `tags`, `options`) carry no decision logic and are omitted:
  a prepared note is identified with its `fields` payload.
* Progress callbacks are recorded as the list of `(done, total)` pairs the
  code would report.
* `ensure_makhfouz_model` is embedded as the list of mutating AnkiConnect
  calls it issues, as a function of the fetched model and field lists.
* `_extract_highlights` (in `anki_integration.py`) operates on untyped
  user data, so it is embedded over a small universe `PyVal` of Python
  values, returning `Except PyErr` to model raised exceptions.
-/

namespace Mahfouz

/-! ## Python-style ordered dictionaries over strings -/

/-- `d.get(k, dflt)`: value of the first entry with key `k`, else `dflt`. -/
def dget : List (String × String) → String → String → String
  | [], _, dflt => dflt
  | p :: rest, k, dflt => if p.1 = k then p.2 else dget rest k dflt

/-- `k in d`. -/
def dmem : List (String × String) → String → Bool
  | [], _ => false
  | p :: rest, k => p.1 = k || dmem rest k

/-- `d[k] = v`: replace the (first) entry with key `k`, or append a new one,
exactly as assignment behaves on a Python dict. -/
def dset : List (String × String) → String → String → List (String × String)
  | [], k, v => [(k, v)]
  | p :: rest, k, v => if p.1 = k then (k, v) :: rest else p :: dset rest k v

/-- `list(d.keys())`. -/
def dkeys (d : List (String × String)) : List String := d.map Prod.fst

/-! ## Python `str.strip()` -/

/-- The character list of `s.strip()`: drop leading and trailing whitespace. -/
def stripList (l : List Char) : List Char :=
  ((l.dropWhile Char.isWhitespace).reverse.dropWhile Char.isWhitespace).reverse

/-- Python `s.strip()` (default whitespace stripping). -/
def pyStrip (s : String) : String := ⟨stripList s.data⟩

/-- `Good s`: `s.strip()` is nonempty, i.e. `s` holds a non-whitespace char. -/
def Good (s : String) : Prop := pyStrip s ≠ ""

/-! ## Field-mapping resolution (`bulk_add_highlights`, lines 718-749)

`pick_fallback(preferred)` returns the first preferred name present in the
live field list, else the first available field, else `None`.  The `None`
placeholder elements Python builds into the preferred lists (for an empty
field list) are irrelevant here because resolution raises beforehand when
the field list is empty; they are modelled by `avail.headD ""` and
`avail.getLastD ""`, which agree with the Python values on a nonempty list. -/

def pickFallback (preferred : List String) (avail : List String) : Option String :=
  match preferred.find? (fun n => avail.contains n) with
  | some n => some n
  | none => avail.head?

/-- Fallback chosen for a declared mapping entry whose target field is
missing from the live field list. -/
def fallbackFor (avail : List String) (source : String) : Option String :=
  if source = "highlight" then pickFallback ["Front", avail.headD ""] avail
  else if source = "comment" then pickFallback ["Back", "Front", avail.headD ""] avail
  else pickFallback ["Back", "Front", avail.getLastD ""] avail

/-- One iteration of the remapping loop over `field_mapping.items()`. -/
def resolveStep (avail : List String) (acc : List (String × String))
    (e : String × String) : List (String × String) :=
  if avail.contains e.2 then dset acc e.1 e.2
  else
    match fallbackFor avail e.1 with
    | some f => dset acc e.1 f
    | none => acc

/-- Mapping resolution: raises `AnkiConnectError("Selected note type has no
fields.")` on an empty field list, otherwise remaps each declared entry and
then forces `highlight` and `comment` targets. -/
def resolveMapping (fm : List (String × String)) (avail : List String) :
    Except String (List (String × String)) :=
  if avail.isEmpty then Except.error "Selected note type has no fields."
  else
    let rm0 := fm.foldl (resolveStep avail) []
    let rm1 := if dmem rm0 "highlight" then rm0
      else dset rm0 "highlight" ((pickFallback ["Front", avail.headD ""] avail).getD "")
    let rm2 := if dmem rm1 "comment" then rm1
      else dset rm1 "comment"
        ((pickFallback ["Back", "Front", avail.getD (min 1 (avail.length - 1)) ""] avail).getD "")
    Except.ok rm2

/-! ## Record materialization (`bulk_add_highlights`, lines 761-837)

One highlight record is a string-valued dictionary.  `mkNote` performs the
per-record body of the preparation loop: the empty-content pre-drop, field
initialization, the mapping-application loop with merge-on-collision, the
force-placement guard, the comment-copy guard, the front/back preference
swap, and the final emptiness guard.  It returns `none` exactly when the
loop body `continue`s without appending a note (both `skipped_empty` drop
sites). -/

/-- The paragraph-break separator used on field collisions. -/
def sep : String := "<br><br>"

/-- Python `a or b` on strings (empty string is falsy). -/
def pyOrS (a b : String) : String := if a ≠ "" then a else b

/-- `str(highlight_data.get("highlight", highlight_data.get("text", "")) or "").strip()` -/
def baseHighlight (hd : List (String × String)) : String :=
  pyStrip (dget hd "highlight" (dget hd "text" ""))

/-- `str(highlight_data.get("comment", "") or "").strip()` -/
def baseComment (hd : List (String × String)) : String :=
  pyStrip (dget hd "comment" "")

/-- A record that the preparation loop drops up front: both its stripped
highlight text and its stripped comment are empty. -/
def emptyRecord (hd : List (String × String)) : Bool :=
  baseHighlight hd == "" && baseComment hd == ""

/-- `fields = {field: "" for field in available_fields}` -/
def initFields (avail : List String) : List (String × String) :=
  avail.foldl (fun d f => dset d f "") []

/-- One iteration of the mapping-application loop (lines 777-784). -/
def applyEntry (avail : List String) (hd : List (String × String))
    (fs : List (String × String)) (e : String × String) : List (String × String) :=
  if avail.contains e.2 then
    let v := dget hd e.1 ""
    if v ≠ "" then
      let cur := dget fs e.2 ""
      if cur ≠ "" then dset fs e.2 (cur ++ sep ++ v)
      else dset fs e.2 v
    else fs
  else fs

/-- The full mapping-application loop. -/
def applyMapping (avail : List String) (rm : List (String × String))
    (hd : List (String × String)) (fs : List (String × String)) :
    List (String × String) :=
  rm.foldl (applyEntry avail hd) fs

/-- `not any(str(val).strip() for val in fields.values())` -/
def allBlank (fs : List (String × String)) : Bool :=
  fs.all (fun p => pyStrip p.2 == "")

/-- Debug information captured alongside each prepared note (lines 829-837). -/
structure Debug where
  front : String := ""
  back : String := ""
  highlight : String := ""
  comment : String := ""
  book : String := ""
  chapter : String := ""
  page : String := ""
deriving Repr, DecidableEq, Inhabited

/-- Lines 787-789: if the mapping loop left every field blank, force the
base text into the field assigned to `highlight` (or the first field). -/
def forcePlace (avail : List String) (hfn bh bc : String)
    (fs1 : List (String × String)) : List (String × String) :=
  if allBlank fs1 then dset fs1 (pyOrS hfn (avail.headD "")) (pyOrS bh bc) else fs1

/-- Lines 791-796: if the record has highlight text but no comment, copy the
highlight text into the comment field (an overwriting assignment). -/
def commentCopy (avail : List String) (cfn bh bc : String)
    (fs2 : List (String × String)) : List (String × String) :=
  if bc = "" ∧ bh ≠ "" then
    let tcf := if cfn ≠ "" then cfn
      else if avail.contains "Back" then "Back"
      else (pickFallback [avail.headD ""] avail).getD ""
    if tcf ≠ "" then dset fs2 tcf bh else fs2
  else fs2

/-- Lines 799-805: the front-content preference, promoting the highlight
and comment values into the literal `Front`/`Back` fields. -/
def frontBackSwap (frontContent hfn cfn : String)
    (fs3 : List (String × String)) : List (String × String) :=
  if frontContent = "highlight" ∧ hfn ≠ "" then
    let hv := dget fs3 hfn ""
    let cv := dget fs3 cfn (dget fs3 "Back" "")
    let fsA := if hv ≠ "" then dset fs3 "Front" hv else fs3
    if cv ≠ "" then dset fsA "Back" cv else fsA
  else fs3

/-- The per-record body of the note-preparation loop.  `none` means the
record was dropped (counted in `skipped_empty`). -/
def mkNote (avail : List String) (rm : List (String × String))
    (frontContent : String) (hd : List (String × String)) :
    Option (List (String × String) × Debug) :=
  let bh := baseHighlight hd
  let bc := baseComment hd
  if bh = "" ∧ bc = "" then none
  else
    let hfn := dget rm "highlight" ""
    let cfn := dget rm "comment" ""
    let fs1 := applyMapping avail rm hd (initFields avail)
    let fs4 := frontBackSwap frontContent hfn cfn
      (commentCopy avail cfn bh bc (forcePlace avail hfn bh bc fs1))
    if allBlank fs4 then none
    else some (fs4,
      { front := dget fs4 "Front" "", back := dget fs4 "Back" "",
        highlight := bh, comment := bc,
        book := pyOrS (dget hd "book_title" "") (dget hd "title" ""),
        chapter := dget hd "chapter" "", page := dget hd "page" "" })

/-! ## Batch submission pipeline (`bulk_add_highlights`, lines 752-907)

Remote responses are supplied per batch by an oracle: `canAdd` is the
outcome of `canAddNotes` (a list of eligibility booleans, or a raised
`AnkiConnectError`), `addRes` the outcome of `addNotes` (one optional note
id per submitted record, or a raised error carrying its message). -/

/-- Remote responses for one batch. -/
structure BatchResp where
  canAdd : Except Unit (List Bool)
  addRes : Except String (List (Option Nat))

/-- The mutable state of `bulk_add_highlights`: counters, diagnostics,
progress reports, prepared notes with their debug info, and (for the
statements below) the batches actually handed to `addNotes`. -/
structure PipeState where
  success : Nat := 0
  fail : Nat := 0
  processed : Nat := 0
  skipped : Nat := 0
  errors : List String := []
  reports : List (Nat × Nat) := []
  nd : List (List (String × String) × Debug) := []
  submitted : List (List (List (String × String))) := []
deriving Repr, DecidableEq, Inhabited

/-- Diagnostic for a record skipped by the duplicate pre-filter. -/
def dupMsg (b : Nat) (dbg : Debug) : String :=
  "Duplicate skipped @batch " ++ toString (b + 1) ++ ": book='" ++ dbg.book ++
    "' chapter='" ++ dbg.chapter ++ "' page='" ++ dbg.page ++
    "' front='" ++ (pyOrS dbg.front dbg.highlight).take 80 ++
    "' back='" ++ (pyOrS dbg.back dbg.comment).take 80 ++ "'"

/-- Diagnostic for a record whose `addNotes` result slot was null. -/
def failMsg (b j : Nat) (dbg : Debug) : String :=
  "Failed to add note @batch " ++ toString (b + 1) ++ ", idx " ++ toString (j + 1) ++
    ": book='" ++ dbg.book ++ "' chapter='" ++ dbg.chapter ++ "' page='" ++ dbg.page ++
    "' front='" ++ (pyOrS dbg.front dbg.highlight).take 80 ++
    "' back='" ++ (pyOrS dbg.back dbg.comment).take 80 ++ "'"

/-- Final summary diagnostic for records skipped as empty. -/
def skipMsg (k : Nat) : String :=
  "Skipped " ++ toString k ++ " empty highlight(s)"

/-- One iteration of the note-preparation loop over `highlights`. -/
def prepStep (avail : List String) (rm : List (String × String))
    (frontContent : String) (total : Nat) (st : PipeState)
    (hd : List (String × String)) : PipeState :=
  match mkNote avail rm frontContent hd with
  | none =>
      { st with skipped := st.skipped + 1, processed := st.processed + 1,
                reports := st.reports ++ [(st.processed + 1, total)] }
  | some nd => { st with nd := st.nd ++ [nd] }

/-- The duplicate pre-filter (lines 850-867): walk `zip(batch, debug_batch,
eligibility)`, keeping eligible records and counting rejected ones as
failures with a diagnostic. -/
def prefilter (b : Nat) (chunk : List (List (String × String) × Debug))
    (elig : List Bool) (st : PipeState) :
    List (List (String × String) × Debug) × PipeState :=
  (chunk.zip elig).foldl
    (fun acc pe =>
      if pe.2 then (acc.1 ++ [pe.1], acc.2)
      else (acc.1,
        { acc.2 with fail := acc.2.fail + 1,
                     errors := acc.2.errors ++ [dupMsg b pe.1.2] }))
    ([], st)

/-- Count the `addNotes` result slots (lines 881-894): a non-null slot is a
success, a null slot a failure with a diagnostic built from the aligned
debug entry (or an empty one past the end). -/
def countResults (b : Nat) (dbgs : List Debug) (results : List (Option Nat))
    (st : PipeState) : PipeState :=
  (results.foldl
    (fun (acc : Nat × PipeState) r =>
      match r with
      | some _ => (acc.1 + 1, { acc.2 with success := acc.2.success + 1 })
      | none =>
          (acc.1 + 1,
            { acc.2 with fail := acc.2.fail + 1,
                         errors := acc.2.errors ++ [failMsg b acc.1 (dbgs.getD acc.1 default)] }))
    (0, st)).2

/-- The duplicate pre-check phase of one batch (lines 846-871): pick the
eligible records (and count the rejected ones), falling back to the whole
batch when duplicates are allowed or `canAddNotes` raised. -/
def eligPhase (orc : Nat → BatchResp) (allowDup : Bool) (b : Nat)
    (st : PipeState) (chunk : List (List (String × String) × Debug)) :
    List (List (String × String) × Debug) × PipeState :=
  if allowDup then (chunk, st)
  else
    match (orc b).canAdd with
    | Except.ok elig => prefilter b chunk elig st
    | Except.error _ => (chunk, st)

/-- The submission phase of one batch (lines 873-901): skip an empty
eligible set, otherwise submit it and count the results (or the raised
transport error), then advance the progress counter and report. -/
def submitPhase (orc : Nat → BatchResp) (total b : Nat)
    (chunk : List (List (String × String) × Debug))
    (ep : List (List (String × String) × Debug) × PipeState) : PipeState :=
  let eligible := ep.1
  let st1 := ep.2
  if eligible.isEmpty then
    { st1 with processed := st1.processed + chunk.length,
               reports := st1.reports ++ [(st1.processed + chunk.length, total)] }
  else
    let st2 := { st1 with submitted := st1.submitted ++ [eligible.map Prod.fst] }
    let st3 :=
      match (orc b).addRes with
      | Except.ok results => countResults b (eligible.map Prod.snd) results st2
      | Except.error e =>
          { st2 with fail := st2.fail + chunk.length, errors := st2.errors ++ [e] }
    { st3 with processed := st3.processed + chunk.length,
               reports := st3.reports ++ [(st3.processed + chunk.length, total)] }

/-- Process one batch (lines 842-901). -/
def runOneBatch (orc : Nat → BatchResp) (allowDup : Bool) (total : Nat)
    (b : Nat) (st : PipeState)
    (chunk : List (List (String × String) × Debug)) : PipeState :=
  submitPhase orc total b chunk (eligPhase orc allowDup b st chunk)

/-- Process the remaining batches, numbering them from `b`. -/
def runBatches (orc : Nat → BatchResp) (allowDup : Bool) (total : Nat) :
    List (List (List (String × String) × Debug)) → Nat → PipeState → PipeState
  | [], _, st => st
  | chunk :: rest, b, st =>
      runBatches orc allowDup total rest (b + 1) (runOneBatch orc allowDup total b st chunk)

/-- Fuel-indexed worker for `chunks50` (the fuel is the list length, which
bounds the number of slices; structural recursion keeps it computable by
plain reduction). -/
def chunks50Go : Nat → List α → List (List α)
  | _, [] => []
  | 0, _ :: _ => []
  | Nat.succ fuel, x :: xs => (x :: xs).take 50 :: chunks50Go fuel ((x :: xs).drop 50)

/-- `notes[i:i+50]` slices: split a list into chunks of 50. -/
def chunks50 (l : List α) : List (List α) := chunks50Go l.length l

/-- The outcome of one export call, together with the observable
intermediate values the properties below speak about (`failPre`/`errorsPre`
are the counters before the final skipped-empty fold-in; `notes` the
prepared payload list; `submitted` the batches handed to `addNotes`). -/
structure Export where
  success : Nat
  fail : Nat
  errors : List String
  reports : List (Nat × Nat)
  submitted : List (List (List (String × String)))
  notes : List (List (String × String))
  skipped : Nat
  failPre : Nat
  errorsPre : List String
deriving Repr, DecidableEq

/-- The progress-report invariant maintained by the pipeline: the reported
`done` values are strictly increasing, bounded by the running `processed`
counter, and the most recent report (with 0 for "none yet") equals it. -/
def ReportInv (st : PipeState) : Prop :=
  (st.reports.map Prod.fst).Chain' (· < ·)
  ∧ (∀ d ∈ st.reports.map Prod.fst, d ≤ st.processed)
  ∧ (st.reports.map Prod.fst).getLastD 0 = st.processed

/-- Lines 903-906: fold the skipped-empty records into the failure count
and append the single summary diagnostic. -/
def finalizeState (stB : PipeState) : PipeState :=
  if stB.skipped ≠ 0 then
    { stB with fail := stB.fail + stB.skipped,
               errors := stB.errors ++ [skipMsg stB.skipped] }
  else stB

/-- The outcome of an export under an already-resolved mapping: prepare
notes, submit them in batches of 50, and fold in the skipped-empty
records. -/
def exportOf (avail : List String) (rm : List (String × String))
    (frontContent : String) (highlights : List (List (String × String)))
    (allowDup : Bool) (orc : Nat → BatchResp) : Export :=
  let total := highlights.length
  let stP := highlights.foldl (prepStep avail rm frontContent total) {}
  let stB := runBatches orc allowDup total (chunks50 stP.nd) 0 stP
  let stF := finalizeState stB
  { success := stF.success, fail := stF.fail, errors := stF.errors,
    reports := stF.reports, submitted := stF.submitted,
    notes := stP.nd.map Prod.fst, skipped := stP.skipped,
    failPre := stB.fail, errorsPre := stB.errors }

/-- `bulk_add_highlights`: resolve the mapping (raising on an empty field
list), then run the export. -/
def bulk_add_highlights (avail : List String) (fm : List (String × String))
    (highlights : List (List (String × String))) (allowDup : Bool)
    (frontContent : String) (orc : Nat → BatchResp) : Except String Export :=
  match resolveMapping fm avail with
  | Except.error e => Except.error e
  | Except.ok rm =>
      Except.ok (exportOf avail rm frontContent highlights allowDup orc)

/-! ## Schema reconciliation (`ensure_makhfouz_model`, lines 288-446)

The method is embedded as the sequence of mutating AnkiConnect calls it
issues.  Its two remote reads are inputs: `modelsRes` is the result of
`get_model_names()` (`none` when that call raised, in which case the local
variable `models` is unbound and the `'models' in locals()` check treats it
as `[]`), and `fieldsRes` the result of `get_model_field_names` (`none`
when it raised, which skips the whole update block via the inner
`except`).  Note that per-call failures of the individual mutating calls
are swallowed by the code and do not change which calls are *issued*, which
is all this model records. -/

/-- A mutating AnkiConnect call. `removeField` and `deleteCards` exist in
the API but are included here only so the non-destructiveness property is a
statement about a type that could express destruction. -/
inductive MCall where
  | addField (name : String)
  | updateStyling
  | updateTemplates
  | createModel
  | removeField (name : String)
  | deleteCards
deriving Repr, DecidableEq

/-- The field list `ensure_makhfouz_model` wants present. -/
def desiredFields : List String :=
  ["Front", "Back", "Source", "Author", "Chapter", "Page", "Date", "UID"]

/-- The mutating calls issued by one invocation of `ensure_makhfouz_model`. -/
def ensure_makhfouz_model (modelsRes : Option (List String))
    (fieldsRes : Option (List String)) : List MCall :=
  let models := modelsRes.getD []
  if models.contains "Makhfouz Highlight" then
    match fieldsRes with
    | none => []
    | some existing =>
        let missing := desiredFields.filter (fun f => ¬ existing.contains f)
        missing.map MCall.addField ++ [MCall.updateStyling, MCall.updateTemplates]
  else [MCall.createModel]

/-! ## Highlight extraction (`anki_integration.py`, lines 153-213)

`_extract_highlights` consumes untyped per-book annotation storage, so it
is embedded over a universe of Python values with exceptions made explicit.
The old-format per-record getter `_get_old_highlight_info` is not part of
the claim under study; it is passed in as an arbitrary function `oldGet`,
so every statement below holds for any behavior of that getter. -/

/-- A Python value as stored in book metadata. -/
inductive PyVal where
  | pnone : PyVal
  | pint : Int → PyVal
  | pstr : String → PyVal
  | plist : List PyVal → PyVal
  | pdict : List (PyVal × PyVal) → PyVal

mutual

/-- Structural equality on the embedded Python values (what `==` computes
on these value shapes). -/
def pyBeq : PyVal → PyVal → Bool
  | PyVal.pnone, PyVal.pnone => true
  | PyVal.pint a, PyVal.pint b => a == b
  | PyVal.pstr a, PyVal.pstr b => a == b
  | PyVal.plist xs, PyVal.plist ys => pyBeqList xs ys
  | PyVal.pdict xs, PyVal.pdict ys => pyBeqPairs xs ys
  | _, _ => false

def pyBeqList : List PyVal → List PyVal → Bool
  | [], [] => true
  | x :: xs, y :: ys => pyBeq x y && pyBeqList xs ys
  | _, _ => false

def pyBeqPairs : List (PyVal × PyVal) → List (PyVal × PyVal) → Bool
  | [], [] => true
  | (a, b) :: ps, (c, d) :: qs => pyBeq a c && pyBeq b d && pyBeqPairs ps qs
  | _, _ => false

end

instance : BEq PyVal := ⟨pyBeq⟩

/-- A raised Python exception (only the classes these code paths can hit). -/
inductive PyErr where
  | typeError
  | keyError
  | indexError
  | attributeError
deriving Repr, DecidableEq

/-- Python truthiness for the embedded values. -/
def pyTruthy : PyVal → Bool
  | PyVal.pnone => false
  | PyVal.pint n => n != 0
  | PyVal.pstr s => s ≠ ""
  | PyVal.plist xs => !xs.isEmpty
  | PyVal.pdict xs => !xs.isEmpty

/-- `d.get(k, dflt)`; raises `AttributeError` when `d` is not a dict. -/
def pyGet (d k dflt : PyVal) : Except PyErr PyVal :=
  match d with
  | PyVal.pdict xs =>
      match xs.find? (fun p => p.1 == k) with
      | some p => Except.ok p.2
      | none => Except.ok dflt
  | _ => Except.error PyErr.attributeError

/-- `d[k]` subscription with Python's error behavior (including negative
list indices). -/
def pySubscr (d k : PyVal) : Except PyErr PyVal :=
  match d with
  | PyVal.pdict xs =>
      match xs.find? (fun p => p.1 == k) with
      | some p => Except.ok p.2
      | none => Except.error PyErr.keyError
  | PyVal.plist xs =>
      match k with
      | PyVal.pint n =>
          let i := if n < 0 then n + xs.length else n
          if h : 0 ≤ i ∧ i.toNat < xs.length then Except.ok (xs.get ⟨i.toNat, h.2⟩)
          else Except.error PyErr.indexError
      | _ => Except.error PyErr.typeError
  | PyVal.pstr s =>
      match k with
      | PyVal.pint n =>
          let i := if n < 0 then n + s.data.length else n
          if h : 0 ≤ i ∧ i.toNat < s.data.length then
            Except.ok (PyVal.pstr ⟨[s.data.get ⟨i.toNat, h.2⟩]⟩)
          else Except.error PyErr.indexError
      | _ => Except.error PyErr.typeError
  | _ => Except.error PyErr.typeError

/-- `for x in v`: the sequence iterated over, or a `TypeError`.  Iterating
a dict yields its keys; iterating a string yields its characters. -/
def pyIterate : PyVal → Except PyErr (List PyVal)
  | PyVal.plist xs => Except.ok xs
  | PyVal.pdict xs => Except.ok (xs.map Prod.fst)
  | PyVal.pstr s => Except.ok (s.data.map (fun c => PyVal.pstr ⟨[c]⟩))
  | _ => Except.error PyErr.typeError

/-- `v.replace("\\\n", "\n")`: only strings have `.replace`. -/
def pyReplaceEsc : PyVal → Except PyErr String
  | PyVal.pstr s => Except.ok (s.replace "\\\n" "\n")
  | _ => Except.error PyErr.attributeError

/-- `str(v)` (container renderings are abbreviated; they are never digit
strings, which is all the control flow below depends on). -/
def pyStrv : PyVal → String
  | PyVal.pnone => "None"
  | PyVal.pint n => toString n
  | PyVal.pstr s => s
  | PyVal.plist _ => "[...]"
  | PyVal.pdict _ => "\x7b...\x7d"

/-- Python `str.isdigit`. -/
def pyIsDigit (s : String) : Bool := s ≠ "" && s.data.all Char.isDigit

/-- `int(v)` for the values that can reach it here (guarded by `isdigit`). -/
def pyToInt : PyVal → Int
  | PyVal.pint n => n
  | PyVal.pstr s => (s.toNat?.getD 0 : Int)
  | _ => 0

/-- `_get_new_highlight_info(data, idx)` (lines 184-213): `Except.ok none`
is Python's `return None` (a position-less bookmark entry). -/
def getNewHighlightInfo (showRefPg : Bool) (data idx : PyVal) :
    Except PyErr (Option PyVal) := do
  let anns ← pySubscr data (PyVal.pstr "annotations")
  let high ← pySubscr anns idx
  let pos0 ← pyGet high (PyVal.pstr "pos0") PyVal.pnone
  if ¬ pyTruthy pos0 then return none
  else
    let page ← pyGet high (PyVal.pstr "pageno") (PyVal.pint 0)
    let refRaw ← pyGet high (PyVal.pstr "pageref") PyVal.pnone
    let refPage := if pyTruthy refRaw && pyIsDigit (pyStrv refRaw)
      then PyVal.pint (pyToInt refRaw) else page
    let textRaw ← pyGet high (PyVal.pstr "text") (PyVal.pstr "")
    let text ← pyReplaceEsc textRaw
    let chapter ← pyGet high (PyVal.pstr "chapter") (PyVal.pstr "")
    let noteRaw ← pyGet high (PyVal.pstr "note") (PyVal.pstr "")
    let comment ← pyReplaceEsc noteRaw
    let date ← pyGet high (PyVal.pstr "datetime") (PyVal.pstr "")
    return some (PyVal.pdict
      [(PyVal.pstr "text", PyVal.pstr text),
       (PyVal.pstr "highlight", PyVal.pstr text),
       (PyVal.pstr "chapter", chapter),
       (PyVal.pstr "comment", PyVal.pstr comment),
       (PyVal.pstr "date", date),
       (PyVal.pstr "page", PyVal.pstr (pyStrv (if showRefPg then refPage else page))),
       (PyVal.pstr "idx", idx)])

/-- The new-format loop: collect truthy results, propagating exceptions. -/
def newLoop (showRefPg : Bool) (data : PyVal) :
    List PyVal → List PyVal → Except PyErr (List PyVal)
  | [], acc => Except.ok acc
  | idx :: rest, acc =>
      match getNewHighlightInfo showRefPg data idx with
      | Except.error e => Except.error e
      | Except.ok none => newLoop showRefPg data rest acc
      | Except.ok (some h) => newLoop showRefPg data rest (acc ++ [h])

/-- The inner old-format loop over per-page annotation ids; an exception
stops the loop but keeps the highlights accumulated so far. -/
def oldIdsLoop (oldGet : PyVal → PyVal → PyVal → Except PyErr (Option PyVal))
    (data page : PyVal) :
    List PyVal → List PyVal → List PyVal × Option PyErr
  | [], acc => (acc, none)
  | pid :: rest, acc =>
      match oldGet data page pid with
      | Except.error e => (acc, some e)
      | Except.ok none => oldIdsLoop oldGet data page rest acc
      | Except.ok (some h) => oldIdsLoop oldGet data page rest (acc ++ [h])

/-- The outer old-format loop over pages (`for page in data.get("highlight",
{}): for page_id in data["highlight"][page]: ...`). -/
def oldPagesLoop (oldGet : PyVal → PyVal → PyVal → Except PyErr (Option PyVal))
    (data : PyVal) :
    List PyVal → List PyVal → List PyVal × Option PyErr
  | [], acc => (acc, none)
  | page :: rest, acc =>
      match pySubscr data (PyVal.pstr "highlight") with
      | Except.error e => (acc, some e)
      | Except.ok hl2 =>
          match pySubscr hl2 page with
          | Except.error e => (acc, some e)
          | Except.ok perPage =>
              match pyIterate perPage with
              | Except.error e => (acc, some e)
              | Except.ok ids =>
                  match oldIdsLoop oldGet data page ids acc with
                  | (acc2, some e) => (acc2, some e)
                  | (acc2, none) => oldPagesLoop oldGet data rest acc2

/-- The old-format branch, up to (but not including) its `try/except`. -/
def runOldBranch (oldGet : PyVal → PyVal → PyVal → Except PyErr (Option PyVal))
    (data : PyVal) : List PyVal × Option PyErr :=
  match pyGet data (PyVal.pstr "highlight") (PyVal.pdict []) with
  | Except.error e => ([], some e)
  | Except.ok hl =>
      match pyIterate hl with
      | Except.error e => ([], some e)
      | Except.ok pages => oldPagesLoop oldGet data pages []

/-- `_extract_highlights(data, path)` (lines 153-182).  The old-format
branch is wrapped in `except (KeyError, TypeError): pass`, which keeps the
highlights collected before the exception; the new-format branch has no
exception handling at all. -/
def extract_highlights (showRefPg : Bool)
    (oldGet : PyVal → PyVal → PyVal → Except PyErr (Option PyVal))
    (data : PyVal) : Except PyErr (List PyVal) :=
  if ¬ pyTruthy data then Except.ok []
  else
    match pyGet data (PyVal.pstr "annotations") PyVal.pnone with
    | Except.error e => Except.error e
    | Except.ok anns =>
        match anns with
        | PyVal.pnone =>
            match runOldBranch oldGet data with
            | (acc, none) => Except.ok acc
            | (acc, some PyErr.keyError) => Except.ok acc
            | (acc, some PyErr.typeError) => Except.ok acc
            | (_, some e) => Except.error e
        | anns =>
            match pyIterate anns with
            | Except.error e => Except.error e
            | Except.ok idxs => newLoop showRefPg data idxs []

/-! ## Dictionary lemmas -/

theorem dget_dset_self (d : List (String × String)) (k v dflt : String) :
    dget (dset d k v) k dflt = v := by
  induction d with
  | nil => simp [dset, dget]
  | cons p rest ih =>
      by_cases h : p.1 = k
      · simp [dset, dget, h]
      · simp [dset, dget, h, ih]

theorem dget_dset_ne (d : List (String × String)) {k k' : String} (v dflt : String)
    (h : k ≠ k') : dget (dset d k v) k' dflt = dget d k' dflt := by
  induction d with
  | nil => simp [dset, dget, h]
  | cons p rest ih =>
      by_cases hp : p.1 = k
      · simp [dset, dget, hp, h]
      · simp [dset, dget, hp, ih]

theorem dmem_dset (d : List (String × String)) (k v k' : String) :
    dmem (dset d k v) k' = (k = k' || dmem d k') := by
  induction d with
  | nil => simp [dset, dmem]
  | cons p rest ih =>
      by_cases hp : p.1 = k
      · simp [dset, dmem, hp]
      · simp [dset, dmem, hp, ih]
        by_cases hk : p.1 = k'
        · simp [hk]
        · simp [hk]

theorem dmem_dset_self (d : List (String × String)) (k v : String) :
    dmem (dset d k v) k = true := by
  simp [dmem_dset]

/-- A key that is present yields an entry of the list: `(k, d.get(k, _)) ∈ d`. -/
theorem dget_mem_of_dmem (d : List (String × String)) (k dflt : String)
    (h : dmem d k = true) : (k, dget d k dflt) ∈ d := by
  induction d with
  | nil => simp [dmem] at h
  | cons p rest ih =>
      obtain ⟨a, b⟩ := p
      by_cases hp : a = k
      · subst hp
        simp [dget]
      · simp [dmem, hp] at h
        have hd : dget ((a, b) :: rest) k dflt = dget rest k dflt := by simp [dget, hp]
        rw [hd]
        exact List.mem_cons_of_mem _ (ih h)

theorem mem_dset_self (d : List (String × String)) (k v : String) :
    (k, v) ∈ dset d k v := by
  induction d with
  | nil => simp [dset]
  | cons p rest ih =>
      by_cases hp : p.1 = k
      · simp [dset, hp]
      · simp [dset, hp]
        exact Or.inr ih

/-- Every entry of `dset d k v` is either the new entry or an old one. -/
theorem mem_of_mem_dset (d : List (String × String)) (k v : String)
    {p : String × String} (h : p ∈ dset d k v) : p = (k, v) ∨ p ∈ d := by
  induction d with
  | nil => simpa [dset] using h
  | cons q rest ih =>
      by_cases hq : q.1 = k
      · simp [dset, hq] at h
        rcases h with h | h
        · exact Or.inl h
        · exact Or.inr (List.mem_cons_of_mem _ h)
      · simp [dset, hq] at h
        rcases h with h | h
        · exact Or.inr (by simp [h])
        · rcases ih h with h' | h'
          · exact Or.inl h'
          · exact Or.inr (List.mem_cons_of_mem _ h')

theorem dkeys_dset_of_dmem (d : List (String × String)) (k v : String)
    (h : dmem d k = true) : dkeys (dset d k v) = dkeys d := by
  induction d with
  | nil => simp [dmem] at h
  | cons p rest ih =>
      by_cases hp : p.1 = k
      · simp [dset, dkeys, hp]
      · simp [dmem, hp] at h
        simp [dset, dkeys, hp] at ih ⊢
        exact ih h

theorem dkeys_dset_of_not_dmem (d : List (String × String)) (k v : String)
    (h : dmem d k = false) : dkeys (dset d k v) = dkeys d ++ [k] := by
  induction d with
  | nil => simp [dset, dkeys]
  | cons p rest ih =>
      by_cases hp : p.1 = k
      · simp [dmem, hp] at h
      · simp [dmem, hp] at h
        simp [dset, dkeys, hp] at ih ⊢
        exact ih h

theorem dmem_iff_mem_dkeys (d : List (String × String)) (k : String) :
    dmem d k = true ↔ k ∈ dkeys d := by
  induction d with
  | nil => simp [dmem, dkeys]
  | cons p rest ih =>
      have hcons : dkeys (p :: rest) = p.1 :: dkeys rest := rfl
      rw [hcons, List.mem_cons]
      by_cases hp : p.1 = k
      · constructor
        · intro _
          exact Or.inl hp.symm
        · intro _
          simp [dmem, hp]
      · simp only [dmem, Bool.or_eq_true, decide_eq_true_eq, ih, hp, false_or]
        constructor
        · exact Or.inr
        · rintro (h | h)
          · exact absurd h.symm hp
          · exact h

/-- If a key is absent, `d.get` falls back to the default. -/
theorem dget_of_not_dmem (d : List (String × String)) (k dflt : String)
    (h : dmem d k = false) : dget d k dflt = dflt := by
  induction d with
  | nil => simp [dget]
  | cons p rest ih =>
      by_cases hp : p.1 = k
      · simp [dmem, hp] at h
      · simp [dmem, hp] at h
        simp [dget, hp, ih h]

theorem fst_mem_of_mem_dset (d : List (String × String)) (k v : String)
    {p : String × String} (h : p ∈ dset d k v) : p.1 = k ∨ p.1 ∈ dkeys d := by
  rcases mem_of_mem_dset _ _ _ h with h' | h'
  · exact Or.inl (by rw [h'])
  · exact Or.inr (List.mem_map_of_mem _ h')

/-! ## `str.strip()` lemmas -/

theorem head_dropWhile_not (p : Char → Bool) (l : List Char) {x : Char}
    (h : (l.dropWhile p).head? = some x) : p x = false := by
  induction l with
  | nil => simp [List.dropWhile] at h
  | cons c rest ih =>
      by_cases hc : p c
      · simpa [List.dropWhile, hc] using ih (by simpa [List.dropWhile, hc] using h)
      · simp [List.dropWhile, hc] at h
        simpa [← h] using hc

theorem stripList_eq_nil_iff (l : List Char) :
    stripList l = [] ↔ ∀ c ∈ l, c.isWhitespace := by
  unfold stripList
  rw [List.reverse_eq_nil_iff, List.dropWhile_eq_nil_iff]
  constructor
  · intro h c hc
    by_cases hmem : c ∈ l.dropWhile Char.isWhitespace
    · exact h c (by simpa using hmem)
    · rcases (@List.takeWhile_append_dropWhile _ Char.isWhitespace l) ▸ hc with hc'
      rcases List.mem_append.1 hc' with h1 | h1
      · exact List.mem_takeWhile_imp h1
      · exact absurd h1 hmem
  · intro h c hc
    exact h c ((List.dropWhile_sublist _).subset (by simpa using hc))

/-- A nonempty stripped string still contains a non-whitespace character
(the head of the trailing-trimmed reversal is non-whitespace). -/
theorem exists_nonws_of_stripList_ne_nil (l : List Char)
    (h : stripList l ≠ []) : ∃ c ∈ stripList l, ¬ c.isWhitespace := by
  unfold stripList at h ⊢
  set B := (l.dropWhile Char.isWhitespace).reverse.dropWhile Char.isWhitespace with hB
  have hBne : B ≠ [] := fun hnil => h (by simp [hnil])
  refine ⟨B.head hBne, List.mem_reverse.2 (List.head_mem hBne), ?_⟩
  have hhd : ((l.dropWhile Char.isWhitespace).reverse.dropWhile Char.isWhitespace).head?
      = some (B.head hBne) := by
    rw [← hB]
    exact List.head?_eq_head hBne
  simpa using head_dropWhile_not Char.isWhitespace _ hhd

theorem pyStrip_eq_empty_iff (s : String) :
    pyStrip s = "" ↔ ∀ c ∈ s.data, c.isWhitespace := by
  unfold pyStrip
  rw [show ("" : String) = ⟨[]⟩ from rfl, String.ext_iff]
  simpa using stripList_eq_nil_iff s.data

theorem good_iff (s : String) : Good s ↔ ∃ c ∈ s.data, ¬ c.isWhitespace := by
  unfold Good
  rw [Ne, pyStrip_eq_empty_iff]
  push_neg
  simp

/-- Stripping is stable: if `s.strip()` is nonempty then it is itself `Good`. -/
theorem good_pyStrip_of_ne (s : String) (h : pyStrip s ≠ "") : Good (pyStrip s) := by
  rw [good_iff]
  have hne : stripList s.data ≠ [] := by
    intro hnil
    exact h (by simp [pyStrip, hnil])
  rcases exists_nonws_of_stripList_ne_nil s.data hne with ⟨c, hc, hcw⟩
  exact ⟨c, by simpa [pyStrip] using hc, hcw⟩

theorem good_append_left (a b : String) (h : Good a) : Good (a ++ b) := by
  rw [good_iff] at h ⊢
  rcases h with ⟨c, hc, hw⟩
  exact ⟨c, by simp [String.data_append, hc], hw⟩

theorem good_append_right (a b : String) (h : Good b) : Good (a ++ b) := by
  rw [good_iff] at h ⊢
  rcases h with ⟨c, hc, hw⟩
  exact ⟨c, by simp [String.data_append, hc], hw⟩

theorem good_ne_empty {s : String} (h : Good s) : s ≠ "" := by
  rw [good_iff] at h
  rcases h with ⟨c, hc, _⟩
  intro hs
  rw [hs] at hc
  simp at hc

/-! ## Resolver lemmas -/

theorem pickFallback_mem {preferred avail : List String} {f : String}
    (h : pickFallback preferred avail = some f) : f ∈ avail := by
  unfold pickFallback at h
  cases hf : preferred.find? (fun n => avail.contains n) with
  | some n =>
      rw [hf] at h
      have hn := List.find?_some hf
      simp at hn
      rw [← Option.some_inj.1 h]
      exact hn
  | none =>
      rw [hf] at h
      exact List.mem_of_mem_head? h

theorem pickFallback_isSome {preferred avail : List String}
    (h : avail ≠ []) : ∃ f, pickFallback preferred avail = some f := by
  unfold pickFallback
  cases hf : preferred.find? (fun n => avail.contains n) with
  | some n => exact ⟨n, rfl⟩
  | none =>
      cases avail with
      | nil => exact absurd rfl h
      | cons a rest => exact ⟨a, rfl⟩

theorem pickFallback_getD_mem {preferred avail : List String}
    (h : avail ≠ []) : (pickFallback preferred avail).getD "" ∈ avail := by
  rcases @pickFallback_isSome preferred avail h with ⟨f, hf⟩
  rw [hf]
  exact pickFallback_mem hf

/-- All target values produced by the remapping loop lie in the live field
list. -/
theorem resolveStep_vals {avail : List String} {acc : List (String × String)}
    (e : String × String) (hacc : ∀ p ∈ acc, p.2 ∈ avail) :
    ∀ p ∈ resolveStep avail acc e, p.2 ∈ avail := by
  intro p hp
  unfold resolveStep at hp
  by_cases ht : avail.contains e.2
  · rw [if_pos ht] at hp
    rcases mem_of_mem_dset _ _ _ hp with h | h
    · subst h
      simpa using ht
    · exact hacc _ h
  · rw [if_neg ht] at hp
    cases hf : fallbackFor avail e.1 with
    | some f =>
        rw [hf] at hp
        rcases mem_of_mem_dset _ _ _ hp with h | h
        · subst h
          unfold fallbackFor at hf
          split at hf
          · exact pickFallback_mem hf
          · split at hf
            · exact pickFallback_mem hf
            · exact pickFallback_mem hf
        · exact hacc _ h
    | none =>
        rw [hf] at hp
        exact hacc _ hp

theorem resolveFold_vals (avail : List String) (fm : List (String × String))
    (acc : List (String × String)) (hacc : ∀ p ∈ acc, p.2 ∈ avail) :
    ∀ p ∈ fm.foldl (resolveStep avail) acc, p.2 ∈ avail := by
  induction fm generalizing acc with
  | nil => simpa using hacc
  | cons e rest ih =>
      simp only [List.foldl_cons]
      exact ih _ (resolveStep_vals e hacc)

theorem resolveStep_keys {avail : List String} {acc : List (String × String)}
    (e : String × String) {k : String}
    (hk : k ∈ dkeys (resolveStep avail acc e)) : k = e.1 ∨ k ∈ dkeys acc := by
  rcases List.mem_map.1 hk with ⟨p, hp, hpk⟩
  subst hpk
  unfold resolveStep at hp
  by_cases ht : avail.contains e.2
  · rw [if_pos ht] at hp
    exact fst_mem_of_mem_dset _ _ _ hp
  · rw [if_neg ht] at hp
    cases hf : fallbackFor avail e.1 with
    | some f =>
        rw [hf] at hp
        exact fst_mem_of_mem_dset _ _ _ hp
    | none =>
        rw [hf] at hp
        exact Or.inr (List.mem_map_of_mem _ hp)

/-- Keys produced by the remapping loop come from the declared mapping. -/
theorem resolveFold_keys (avail : List String) (fm : List (String × String))
    (acc : List (String × String)) :
    ∀ p ∈ fm.foldl (resolveStep avail) acc,
      p.1 ∈ dkeys acc ∨ p.1 ∈ fm.map Prod.fst := by
  induction fm generalizing acc with
  | nil =>
      intro p hp
      exact Or.inl (List.mem_map_of_mem _ (by simpa using hp))
  | cons e rest ih =>
      intro p hp
      simp only [List.foldl_cons] at hp
      rcases ih (resolveStep avail acc e) p hp with h | h
      · rcases resolveStep_keys e h with h' | h'
        · exact Or.inr (by simp [h'])
        · exact Or.inl h'
      · exact Or.inr (by simp [h])

theorem resolveMapping_error_of_nil (fm : List (String × String)) :
    resolveMapping fm [] = Except.error "Selected note type has no fields." := by
  simp [resolveMapping]

theorem resolveMapping_ok_of_ne_nil (fm : List (String × String))
    {avail : List String} (h : avail ≠ []) :
    ∃ rm, resolveMapping fm avail = Except.ok rm := by
  unfold resolveMapping
  rw [if_neg (by simpa using h)]
  exact ⟨_, rfl⟩

/-- Invariants of a successfully resolved mapping: the `highlight` and
`comment` keys are present, and every target value is a live field name. -/
theorem resolveMapping_invariants {fm : List (String × String)}
    {avail : List String} {rm : List (String × String)}
    (hres : resolveMapping fm avail = Except.ok rm) :
    avail ≠ [] ∧ dmem rm "highlight" = true ∧ dmem rm "comment" = true ∧
      ∀ p ∈ rm, p.2 ∈ avail := by
  unfold resolveMapping at hres
  by_cases hav : avail.isEmpty
  · rw [if_pos hav] at hres
    exact absurd hres (by simp)
  · rw [if_neg hav] at hres
    simp only [Except.ok.injEq] at hres
    have havne : avail ≠ [] := by simpa using hav
    set rm0 := fm.foldl (resolveStep avail) [] with hrm0
    have h0vals : ∀ p ∈ rm0, p.2 ∈ avail :=
      resolveFold_vals avail fm [] (by simp)
    set rm1 := if dmem rm0 "highlight" then rm0
      else dset rm0 "highlight" ((pickFallback ["Front", avail.headD ""] avail).getD "")
      with hrm1
    have h1vals : ∀ p ∈ rm1, p.2 ∈ avail := by
      rw [hrm1]
      split
      · exact h0vals
      · intro p hp
        rcases mem_of_mem_dset _ _ _ hp with h | h
        · rw [h]
          exact pickFallback_getD_mem havne
        · exact h0vals _ h
    have h1high : dmem rm1 "highlight" = true := by
      rw [hrm1]
      split
      · assumption
      · exact dmem_dset_self _ _ _
    have h2vals : ∀ p ∈ (if dmem rm1 "comment" then rm1
        else dset rm1 "comment"
          ((pickFallback ["Back", "Front", avail.getD (min 1 (avail.length - 1)) ""]
            avail).getD "")), p.2 ∈ avail := by
      split
      · exact h1vals
      · intro p hp
        rcases mem_of_mem_dset _ _ _ hp with h | h
        · rw [h]
          exact pickFallback_getD_mem havne
        · exact h1vals _ h
    have h2high : dmem (if dmem rm1 "comment" then rm1
        else dset rm1 "comment"
          ((pickFallback ["Back", "Front", avail.getD (min 1 (avail.length - 1)) ""]
            avail).getD "")) "highlight" = true := by
      split
      · exact h1high
      · rw [dmem_dset, h1high]
        simp
    have h2com : dmem (if dmem rm1 "comment" then rm1
        else dset rm1 "comment"
          ((pickFallback ["Back", "Front", avail.getD (min 1 (avail.length - 1)) ""]
            avail).getD "")) "comment" = true := by
      split
      · assumption
      · exact dmem_dset_self _ _ _
    refine ⟨havne, ?_, ?_, ?_⟩
    · rw [← hres]
      exact h2high
    · rw [← hres]
      exact h2com
    · rw [← hres]
      exact h2vals

/-- The comment target of a resolved mapping is a live field name. -/
theorem resolveMapping_comment_mem {fm : List (String × String)}
    {avail : List String} {rm : List (String × String)}
    (hres : resolveMapping fm avail = Except.ok rm) :
    dget rm "comment" "" ∈ avail := by
  rcases resolveMapping_invariants hres with ⟨_, _, hcom, hvals⟩
  exact hvals _ (dget_mem_of_dmem rm "comment" "" hcom)

/-- The highlight target of a resolved mapping is a live field name. -/
theorem resolveMapping_highlight_mem {fm : List (String × String)}
    {avail : List String} {rm : List (String × String)}
    (hres : resolveMapping fm avail = Except.ok rm) :
    dget rm "highlight" "" ∈ avail := by
  rcases resolveMapping_invariants hres with ⟨_, hhigh, _, hvals⟩
  exact hvals _ (dget_mem_of_dmem rm "highlight" "" hhigh)

/-! ## Materializer lemmas -/

theorem foldl_dset_empty_vals (l : List String) (acc : List (String × String))
    (hacc : ∀ p ∈ acc, p.2 = "") :
    ∀ p ∈ l.foldl (fun d f => dset d f "") acc, p.2 = "" := by
  induction l generalizing acc with
  | nil => simpa using hacc
  | cons a rest ih =>
      simp only [List.foldl_cons]
      refine ih _ ?_
      intro p hp
      rcases mem_of_mem_dset _ _ _ hp with h | h
      · rw [h]
      · exact hacc _ h

theorem initFields_vals (avail : List String) :
    ∀ p ∈ initFields avail, p.2 = "" :=
  foldl_dset_empty_vals avail [] (by simp)

theorem dget_eq_empty_of_vals (d : List (String × String))
    (h : ∀ p ∈ d, p.2 = "") (k : String) : dget d k "" = "" := by
  cases hm : dmem d k with
  | true => exact h _ (dget_mem_of_dmem d k "" hm)
  | false => exact dget_of_not_dmem d k "" hm

theorem dget_initFields (avail : List String) (f : String) :
    dget (initFields avail) f "" = "" :=
  dget_eq_empty_of_vals _ (initFields_vals avail) f

theorem dmem_foldl_dset (l : List String) (acc : List (String × String)) (f : String) :
    dmem (l.foldl (fun d g => dset d g "") acc) f = (dmem acc f || l.contains f) := by
  induction l generalizing acc with
  | nil => simp
  | cons a rest ih =>
      simp only [List.foldl_cons, ih, dmem_dset, List.contains_cons]
      by_cases ha : a = f
      · simp [ha]
      · have hfa : ¬ f = a := fun h => ha h.symm
        rw [show (f == a) = false from by simp [hfa]]
        simp [ha]

theorem dmem_initFields (avail : List String) (f : String) :
    dmem (initFields avail) f = avail.contains f := by
  simp [initFields, dmem_foldl_dset, dmem]

theorem dkeys_foldl_dset (l : List String) (acc : List (String × String))
    (hdisj : ∀ f ∈ l, dmem acc f = false) (hnodup : l.Nodup) :
    dkeys (l.foldl (fun d g => dset d g "") acc) = dkeys acc ++ l := by
  induction l generalizing acc with
  | nil => simp
  | cons a rest ih =>
      simp only [List.foldl_cons]
      rw [ih (dset acc a "") ?_ (List.Nodup.of_cons hnodup)]
      · rw [dkeys_dset_of_not_dmem _ _ _ (hdisj a (by simp))]
        simp
      · intro f hf
        rw [dmem_dset]
        have hne : a ≠ f := by
          intro hrfl
          subst hrfl
          exact (List.nodup_cons.1 hnodup).1 hf
        simp [hne, hdisj f (List.mem_cons_of_mem _ hf)]

theorem dkeys_initFields_of_nodup (avail : List String) (h : avail.Nodup) :
    dkeys (initFields avail) = avail := by
  have := dkeys_foldl_dset avail [] (by simp [dmem]) h
  simpa [initFields, dkeys] using this

/-- A default value is irrelevant at a present key. -/
theorem dget_dflt_irrel (d : List (String × String)) (k : String)
    (h : dmem d k = true) (d1 d2 : String) : dget d k d1 = dget d k d2 := by
  induction d with
  | nil => simp [dmem] at h
  | cons p rest ih =>
      by_cases hp : p.1 = k
      · simp [dget, hp]
      · simp [dmem, hp] at h
        simp [dget, hp, ih h]

/-- First-occurrence decomposition of a present key. -/
theorem dmem_decomp (d : List (String × String)) (k : String)
    (h : dmem d k = true) :
    ∃ l1 l2, d = l1 ++ (k, dget d k "") :: l2 ∧ ∀ p ∈ l1, p.1 ≠ k := by
  induction d with
  | nil => simp [dmem] at h
  | cons p rest ih =>
      obtain ⟨a, b⟩ := p
      by_cases hp : a = k
      · subst hp
        exact ⟨[], rest, by simp [dget], by simp⟩
      · simp [dmem, hp] at h
        rcases ih h with ⟨l1, l2, hd, hl1⟩
        refine ⟨(a, b) :: l1, l2, ?_, ?_⟩
        · have : dget ((a, b) :: rest) k "" = dget rest k "" := by simp [dget, hp]
          rw [this, List.cons_append, ← hd]
        · intro q hq
          rcases List.mem_cons.1 hq with h' | h'
          · rw [h']
            simpa using hp
          · exact hl1 _ h'

/-- Entries that contribute nothing to field `f` leave its value unchanged. -/
theorem applyEntry_preserve (avail : List String) (hd fs : List (String × String))
    (e : String × String) (f : String) (he : e.2 = f → dget hd e.1 "" = "") :
    dget (applyEntry avail hd fs e) f "" = dget fs f "" := by
  unfold applyEntry
  by_cases hc : avail.contains e.2
  · rw [if_pos hc]
    by_cases hv : dget hd e.1 "" ≠ ""
    · have hne : e.2 ≠ f := by
        intro hrfl
        exact hv (he hrfl)
      simp only [if_pos hv]
      by_cases hcur : dget fs e.2 "" ≠ ""
      · rw [if_pos hcur]
        exact dget_dset_ne _ _ _ hne
      · rw [if_neg hcur]
        exact dget_dset_ne _ _ _ hne
    · simp only [if_neg hv]
  · rw [if_neg hc]

theorem applyMapping_preserve (avail : List String) (m : List (String × String))
    (hd fs : List (String × String)) (f : String)
    (hm : ∀ p ∈ m, p.2 = f → dget hd p.1 "" = "") :
    dget (applyMapping avail m hd fs) f "" = dget fs f "" := by
  induction m generalizing fs with
  | nil => rfl
  | cons e rest ih =>
      have hcons : applyMapping avail (e :: rest) hd fs
          = applyMapping avail rest hd (applyEntry avail hd fs e) := rfl
      rw [hcons, ih _ (fun p hp => hm p (List.mem_cons_of_mem _ hp))]
      exact applyEntry_preserve avail hd fs e f (hm e (by simp))

/-- The collision behavior of one loop iteration at its own target field:
append after existing content, never overwrite. -/
theorem applyEntry_at (avail : List String) (hd fs : List (String × String))
    (k f : String) (hc : avail.contains f = true) (hv : dget hd k "" ≠ "") :
    dget (applyEntry avail hd fs (k, f)) f ""
      = if dget fs f "" ≠ "" then dget fs f "" ++ sep ++ dget hd k ""
        else dget hd k "" := by
  unfold applyEntry
  have hmem : f ∈ avail := by simpa using hc
  by_cases hcur : dget fs f "" ≠ ""
  · simp [hmem, hv, hcur, dget_dset_self]
  · simp [hmem, hv, hcur, dget_dset_self]

/-- A field that is `Good` stays `Good` through the mapping loop: collisions
append, they never erase existing content. -/
theorem good_applyEntry (avail : List String) (hd fs : List (String × String))
    (e : String × String) (f : String) (h : Good (dget fs f "")) :
    Good (dget (applyEntry avail hd fs e) f "") := by
  unfold applyEntry
  by_cases hc : avail.contains e.2
  · rw [if_pos hc]
    by_cases hv : dget hd e.1 "" ≠ ""
    · simp only [if_pos hv]
      by_cases hef : e.2 = f
      · subst hef
        have hcur : dget fs e.2 "" ≠ "" := good_ne_empty h
        rw [if_pos hcur, dget_dset_self]
        exact good_append_left _ _ (good_append_left _ _ h)
      · by_cases hcur : dget fs e.2 "" ≠ ""
        · rw [if_pos hcur, dget_dset_ne _ _ _ hef]
          exact h
        · rw [if_neg hcur, dget_dset_ne _ _ _ hef]
          exact h
    · simpa only [if_neg hv] using h
  · simpa only [if_neg hc] using h

theorem good_applyMapping (avail : List String) (m : List (String × String))
    (hd fs : List (String × String)) (f : String) (h : Good (dget fs f "")) :
    Good (dget (applyMapping avail m hd fs) f "") := by
  induction m generalizing fs with
  | nil => exact h
  | cons e rest ih =>
      have hcons : applyMapping avail (e :: rest) hd fs
          = applyMapping avail rest hd (applyEntry avail hd fs e) := rfl
      rw [hcons]
      exact ih _ (good_applyEntry avail hd fs e f h)

/-- Applying an entry whose record value is `Good` makes its target field
`Good` (either it is written outright or appended after existing content). -/
theorem good_applyEntry_self (avail : List String) (hd fs : List (String × String))
    (k f : String) (hc : avail.contains f = true) (hv : Good (dget hd k "")) :
    Good (dget (applyEntry avail hd fs (k, f)) f "") := by
  rw [applyEntry_at avail hd fs k f hc (good_ne_empty hv)]
  by_cases hcur : dget fs f "" ≠ ""
  · rw [if_pos hcur]
    exact good_append_right _ _ hv
  · rw [if_neg hcur]
    exact hv

/-- Key presence is monotone through the loop. -/
theorem dmem_applyEntry (avail : List String) (hd fs : List (String × String))
    (e : String × String) (k : String) (h : dmem fs k = true) :
    dmem (applyEntry avail hd fs e) k = true := by
  unfold applyEntry
  by_cases hc : avail.contains e.2
  · rw [if_pos hc]
    by_cases hv : dget hd e.1 "" ≠ ""
    · simp only [if_pos hv]
      by_cases hcur : dget fs e.2 "" ≠ ""
      · rw [if_pos hcur, dmem_dset, h]
        simp
      · rw [if_neg hcur, dmem_dset, h]
        simp
    · simpa only [if_neg hv] using h
  · simpa only [if_neg hc] using h

theorem dmem_applyMapping (avail : List String) (m : List (String × String))
    (hd fs : List (String × String)) (k : String) (h : dmem fs k = true) :
    dmem (applyMapping avail m hd fs) k = true := by
  induction m generalizing fs with
  | nil => exact h
  | cons e rest ih =>
      have hcons : applyMapping avail (e :: rest) hd fs
          = applyMapping avail rest hd (applyEntry avail hd fs e) := rfl
      rw [hcons]
      exact ih _ (dmem_applyEntry avail hd fs e k h)

/-- A `Good` value at some key refutes the all-blank check. -/
theorem allBlank_eq_false_of_good (fs : List (String × String)) (g : String)
    (h : Good (dget fs g "")) : allBlank fs = false := by
  have hm : dmem fs g = true := by
    by_contra hmem
    have : dmem fs g = false := by
      cases hx : dmem fs g
      · rfl
      · exact absurd hx hmem
    exact good_ne_empty (by simpa [dget_of_not_dmem fs g "" this] using h) rfl
  have hpair := dget_mem_of_dmem fs g "" hm
  unfold allBlank
  rw [List.all_eq_false]
  exact ⟨(g, dget fs g ""), hpair, by simpa using h⟩

theorem applyMapping_append (avail : List String) (xs ys hd fs : List (String × String)) :
    applyMapping avail (xs ++ ys) hd fs = applyMapping avail ys hd (applyMapping avail xs hd fs) := by
  simp [applyMapping, List.foldl_append]

/-! ## Materialized records of nonempty content survive to submission -/

/-- A record with no textual content is dropped by the first guard. -/
theorem mkNote_eq_none_of_empty (avail : List String) (rm : List (String × String))
    (fc : String) (hd : List (String × String)) (h : emptyRecord hd = true) :
    mkNote avail rm fc hd = none := by
  have h' : baseHighlight hd = "" ∧ baseComment hd = "" := by
    simpa [emptyRecord] using h
  simp only [mkNote]
  rw [if_pos h']

/-- If the comment field holds a `Good` value going into the front/back
swap, some field holds a `Good` value coming out. -/
theorem frontBackSwap_good (fc hfn cfn : String) (fs3 : List (String × String))
    (hmem : dmem fs3 cfn = true) (hgood : Good (dget fs3 cfn "")) :
    ∃ g, Good (dget (frontBackSwap fc hfn cfn fs3) g "") := by
  unfold frontBackSwap
  by_cases hsw : fc = "highlight" ∧ hfn ≠ ""
  · rw [if_pos hsw]
    have hcv : dget fs3 cfn (dget fs3 "Back" "") = dget fs3 cfn "" :=
      dget_dflt_irrel _ _ hmem _ _
    have hcvne : dget fs3 cfn (dget fs3 "Back" "") ≠ "" := by
      rw [hcv]
      exact good_ne_empty hgood
    rw [if_pos hcvne]
    refine ⟨"Back", ?_⟩
    rw [dget_dset_self, hcv]
    exact hgood
  · rw [if_neg hsw]
    exact ⟨cfn, hgood⟩

/-- Survival: a record with some textual content always materializes, for
any front-content policy, whenever the live field list is nonempty and its
names are nonempty strings.  (The final emptiness guard at line 808 is
unreachable for such records.) -/
theorem mkNote_isSome_of_not_empty (avail : List String) (rm : List (String × String))
    (fc : String) (hd : List (String × String))
    (hnoempty : "" ∉ avail)
    (hcmem : dmem rm "comment" = true)
    (hcval : dget rm "comment" "" ∈ avail)
    (hrec : ¬ (baseHighlight hd = "" ∧ baseComment hd = "")) :
    (mkNote avail rm fc hd).isSome = true := by
  simp only [mkNote]
  rw [if_neg hrec]
  set fs1 := applyMapping avail rm hd (initFields avail) with hfs1
  set fs2 := forcePlace avail (dget rm "highlight" "") (baseHighlight hd) (baseComment hd) fs1
    with hfs2
  set fs3 := commentCopy avail (dget rm "comment" "") (baseHighlight hd) (baseComment hd) fs2
    with hfs3
  set fs4 := frontBackSwap fc (dget rm "highlight" "") (dget rm "comment" "") fs3 with hfs4
  have hcfnne : dget rm "comment" "" ≠ "" := by
    intro h
    exact hnoempty (h ▸ hcval)
  have hccont : avail.contains (dget rm "comment" "") = true := by simpa using hcval
  have hkey : Good (dget fs3 (dget rm "comment" "") "")
      ∧ dmem fs3 (dget rm "comment" "") = true := by
    by_cases hbc : baseComment hd = ""
    · have hbh : baseHighlight hd ≠ "" := fun h => hrec ⟨h, hbc⟩
      have hbhgood : Good (baseHighlight hd) := good_pyStrip_of_ne _ hbh
      have hfs3eq : fs3 = dset fs2 (dget rm "comment" "") (baseHighlight hd) := by
        rw [hfs3]
        unfold commentCopy
        rw [if_pos ⟨hbc, hbh⟩]
        simp [hcfnne]
      constructor
      · rw [hfs3eq, dget_dset_self]
        exact hbhgood
      · rw [hfs3eq]
        exact dmem_dset_self _ _ _
    · have hrgood : Good (dget hd "comment" "") := hbc
      have hgood1 : Good (dget fs1 (dget rm "comment" "") "") := by
        rcases dmem_decomp rm "comment" hcmem with ⟨l1, l2, hdecomp, _⟩
        have key : ∀ m : List (String × String),
            m = l1 ++ ("comment", dget rm "comment" "") :: l2 →
            Good (dget (applyMapping avail m hd (initFields avail))
              (dget rm "comment" "") "") := by
          intro m hm
          rw [hm, applyMapping_append]
          have hcons : applyMapping avail (("comment", dget rm "comment" "") :: l2) hd
                (applyMapping avail l1 hd (initFields avail))
              = applyMapping avail l2 hd
                (applyEntry avail hd (applyMapping avail l1 hd (initFields avail))
                  ("comment", dget rm "comment" "")) := rfl
          rw [hcons]
          exact good_applyMapping _ _ _ _ _ (good_applyEntry_self _ _ _ _ _ hccont hrgood)
        rw [hfs1]
        exact key rm hdecomp
      have hmem1 : dmem fs1 (dget rm "comment" "") = true := by
        rw [hfs1]
        exact dmem_applyMapping _ _ _ _ _ (by rw [dmem_initFields]; exact hccont)
      have hfs2eq : fs2 = fs1 := by
        rw [hfs2]
        unfold forcePlace
        rw [allBlank_eq_false_of_good fs1 _ hgood1]
        simp
      have hfs3eq : fs3 = fs2 := by
        rw [hfs3]
        unfold commentCopy
        rw [if_neg (fun hand => hbc hand.1)]
      rw [hfs3eq, hfs2eq]
      exact ⟨hgood1, hmem1⟩
  rcases frontBackSwap_good fc (dget rm "highlight" "") (dget rm "comment" "") fs3
      hkey.2 hkey.1 with ⟨g, hg⟩
  have hblank : allBlank fs4 = false := allBlank_eq_false_of_good fs4 g (hfs4 ▸ hg)
  rw [hblank]
  simp

/-! ## Payload keys under the default front-content policy -/

theorem dkeys_applyEntry_eq (avail : List String) (hd fs : List (String × String))
    (e : String × String) (h : dkeys fs = avail) :
    dkeys (applyEntry avail hd fs e) = avail := by
  unfold applyEntry
  by_cases hc : avail.contains e.2
  · rw [if_pos hc]
    have hmem : dmem fs e.2 = true := by
      rw [dmem_iff_mem_dkeys, h]
      simpa using hc
    by_cases hv : dget hd e.1 "" ≠ ""
    · simp only [if_pos hv]
      by_cases hcur : dget fs e.2 "" ≠ ""
      · rw [if_pos hcur, dkeys_dset_of_dmem _ _ _ hmem]
        exact h
      · rw [if_neg hcur, dkeys_dset_of_dmem _ _ _ hmem]
        exact h
    · simpa only [if_neg hv] using h
  · simpa only [if_neg hc] using h

theorem dkeys_applyMapping_eq (avail : List String) (m hd fs : List (String × String))
    (h : dkeys fs = avail) : dkeys (applyMapping avail m hd fs) = avail := by
  induction m generalizing fs with
  | nil => exact h
  | cons e rest ih =>
      have hcons : applyMapping avail (e :: rest) hd fs
          = applyMapping avail rest hd (applyEntry avail hd fs e) := rfl
      rw [hcons]
      exact ih _ (dkeys_applyEntry_eq avail hd fs e h)

theorem headD_mem (avail : List String) (hav : avail ≠ []) : avail.headD "" ∈ avail := by
  cases avail with
  | nil => exact absurd rfl hav
  | cons a rest => simp

theorem dkeys_forcePlace_eq (avail : List String) (hfn bh bc : String)
    (fs1 : List (String × String)) (hav : avail ≠ [])
    (hfnmem : hfn ≠ "" → hfn ∈ avail) (h : dkeys fs1 = avail) :
    dkeys (forcePlace avail hfn bh bc fs1) = avail := by
  unfold forcePlace
  by_cases hb : allBlank fs1 = true
  · rw [hb]
    simp only [if_true]
    have hfb : pyOrS hfn (avail.headD "") ∈ avail := by
      unfold pyOrS
      by_cases hh : hfn ≠ ""
      · rw [if_pos hh]
        exact hfnmem hh
      · rw [if_neg hh]
        exact headD_mem avail hav
    have hmem : dmem fs1 (pyOrS hfn (avail.headD "")) = true := by
      rw [dmem_iff_mem_dkeys, h]
      exact hfb
    rw [dkeys_dset_of_dmem _ _ _ hmem]
    exact h
  · have hb' : allBlank fs1 = false := by
      cases hx : allBlank fs1
      · rfl
      · exact absurd hx hb
    rw [hb']
    simpa using h

theorem dkeys_commentCopy_eq (avail : List String) (cfn bh bc : String)
    (fs2 : List (String × String)) (hav : avail ≠ [])
    (hcfnmem : cfn ≠ "" → cfn ∈ avail) (h : dkeys fs2 = avail) :
    dkeys (commentCopy avail cfn bh bc fs2) = avail := by
  unfold commentCopy
  by_cases hcond : bc = "" ∧ bh ≠ ""
  · rw [if_pos hcond]
    have htcf : ∀ t : String, t ∈ avail → dkeys (dset fs2 t bh) = avail := by
      intro t ht
      rw [dkeys_dset_of_dmem _ _ _ (by rw [dmem_iff_mem_dkeys, h]; exact ht)]
      exact h
    by_cases hcfn : cfn ≠ ""
    · simp only [if_pos hcfn]
      exact htcf cfn (hcfnmem hcfn)
    · simp only [if_neg hcfn]
      by_cases hback : avail.contains "Back"
      · simp only [if_pos hback]
        have : ("Back" : String) ≠ "" := by decide
        rw [if_pos this]
        exact htcf "Back" (by simpa using hback)
      · simp only [if_neg hback]
        by_cases hpf : (pickFallback [avail.headD ""] avail).getD "" ≠ ""
        · rw [if_pos hpf]
          exact htcf _ (pickFallback_getD_mem hav)
        · rw [if_neg hpf]
          exact h
  · rw [if_neg hcond]
    exact h

theorem frontBackSwap_eq_of_ne (fc hfn cfn : String) (fs3 : List (String × String))
    (h : fc ≠ "highlight") : frontBackSwap fc hfn cfn fs3 = fs3 := by
  unfold frontBackSwap
  rw [if_neg (fun hand => h hand.1)]

/-- Under the `"comment"` front-content policy the materialized payload's
key list is exactly the live field list. -/
theorem mkNote_keys (avail : List String) (rm hd : List (String × String))
    (hnodup : avail.Nodup) (hav : avail ≠ [])
    (hcval : dget rm "comment" "" ∈ avail) (hhval : dget rm "highlight" "" ∈ avail)
    {payload : List (String × String)} {dbg : Debug}
    (h : mkNote avail rm "comment" hd = some (payload, dbg)) :
    dkeys payload = avail := by
  simp only [mkNote] at h
  by_cases hcond : baseHighlight hd = "" ∧ baseComment hd = ""
  · rw [if_pos hcond] at h
    exact absurd h (by simp)
  · rw [if_neg hcond] at h
    set fs1 := applyMapping avail rm hd (initFields avail) with hfs1
    set fs2 := forcePlace avail (dget rm "highlight" "") (baseHighlight hd) (baseComment hd) fs1
      with hfs2
    set fs3 := commentCopy avail (dget rm "comment" "") (baseHighlight hd) (baseComment hd) fs2
      with hfs3
    set fs4 := frontBackSwap "comment" (dget rm "highlight" "") (dget rm "comment" "") fs3
      with hfs4
    have hk4 : dkeys fs4 = avail := by
      rw [hfs4, frontBackSwap_eq_of_ne _ _ _ _ (by decide), hfs3]
      refine dkeys_commentCopy_eq avail _ _ _ fs2 hav (fun _ => hcval) ?_
      rw [hfs2]
      refine dkeys_forcePlace_eq avail _ _ _ fs1 hav (fun _ => hhval) ?_
      rw [hfs1]
      exact dkeys_applyMapping_eq avail rm hd _ (dkeys_initFields_of_nodup avail hnodup)
    by_cases hblank : allBlank fs4 = true
    · rw [hblank] at h
      simp at h
    · have hb' : allBlank fs4 = false := by
        cases hx : allBlank fs4
        · rfl
        · exact absurd hx hblank
      rw [hb'] at h
      simp only [Bool.false_eq_true, if_false, Option.some.injEq, Prod.mk.injEq] at h
      rw [← h.1]
      exact hk4

/-! ## Forced-fallback targets (resolver post-processing) -/

theorem pickFallback_front_eq (avail : List String) (hav : avail ≠ []) :
    (pickFallback ["Front", avail.headD ""] avail).getD ""
      = if avail.contains "Front" then "Front" else avail.headD "" := by
  have hh : avail.head?.getD "" ∈ avail := by simpa using headD_mem avail hav
  by_cases hF : "Front" ∈ avail
  · simp [pickFallback, List.find?_cons, hF]
  · simp [pickFallback, List.find?_cons, hF, hh]

theorem getD_idx_mem (avail : List String) (hav : avail ≠ []) :
    avail.getD (min 1 (avail.length - 1)) "" ∈ avail := by
  have hlt : min 1 (avail.length - 1) < avail.length := by
    have : 0 < avail.length := List.length_pos.2 hav
    omega
  rw [List.getD_eq_getElem?_getD, List.getElem?_eq_getElem hlt]
  simp only [Option.getD_some]
  exact List.getElem_mem hlt

theorem pickFallback_comment_eq (avail : List String) (hav : avail ≠ []) :
    (pickFallback ["Back", "Front", avail.getD (min 1 (avail.length - 1)) ""] avail).getD ""
      = if avail.contains "Back" then "Back"
        else if avail.contains "Front" then "Front"
        else avail.getD (min 1 (avail.length - 1)) "" := by
  have hidx : avail[min 1 (avail.length - 1)]?.getD "" ∈ avail := by
    simpa [List.getD_eq_getElem?_getD] using getD_idx_mem avail hav
  by_cases hB : "Back" ∈ avail
  · simp [pickFallback, List.find?_cons, hB]
  · by_cases hF : "Front" ∈ avail
    · simp [pickFallback, List.find?_cons, hB, hF]
    · simp [pickFallback, List.find?_cons, hB, hF, hidx]

/-- A key absent from the declared mapping stays absent through the
remapping loop. -/
theorem not_dmem_fold_of_keys (avail : List String) (fm : List (String × String))
    (key : String) (h : ∀ p ∈ fm, p.1 ≠ key) :
    dmem (fm.foldl (resolveStep avail) []) key = false := by
  cases hx : dmem (fm.foldl (resolveStep avail) []) key
  · rfl
  · exfalso
    have hpair := dget_mem_of_dmem _ key "" hx
    rcases resolveFold_keys avail fm [] _ hpair with hcase | hcase
    · simp [dkeys] at hcase
    · rcases List.mem_map.1 hcase with ⟨q, hq, hqk⟩
      exact h q hq hqk

/-- The target forced for a still-unmapped `highlight`/`comment` key. -/
theorem resolveMapping_forced {fm : List (String × String)} {avail : List String}
    {rm : List (String × String)}
    (hres : resolveMapping fm avail = Except.ok rm)
    (hh : ∀ p ∈ fm, p.1 ≠ "highlight") (hc : ∀ p ∈ fm, p.1 ≠ "comment") :
    dget rm "highlight" "" = (if avail.contains "Front" then "Front" else avail.headD "")
    ∧ dget rm "comment" ""
        = (if avail.contains "Back" then "Back"
           else if avail.contains "Front" then "Front"
           else avail.getD (min 1 (avail.length - 1)) "") := by
  have hav : avail ≠ [] := (resolveMapping_invariants hres).1
  unfold resolveMapping at hres
  rw [if_neg (by simpa using hav)] at hres
  simp only [Except.ok.injEq] at hres
  have hnh : dmem (fm.foldl (resolveStep avail) []) "highlight" = false :=
    not_dmem_fold_of_keys avail fm "highlight" hh
  have hnc : dmem (fm.foldl (resolveStep avail) []) "comment" = false :=
    not_dmem_fold_of_keys avail fm "comment" hc
  rw [hnh] at hres
  simp only [Bool.false_eq_true, if_false] at hres
  have hnc1 : dmem (dset (fm.foldl (resolveStep avail) []) "highlight"
      ((pickFallback ["Front", avail.headD ""] avail).getD "")) "comment" = false := by
    rw [dmem_dset, hnc]
    simp
  rw [hnc1] at hres
  simp only [Bool.false_eq_true, if_false] at hres
  rw [← hres]
  constructor
  · rw [dget_dset_ne _ _ _ (by decide), dget_dset_self]
    exact pickFallback_front_eq avail hav
  · rw [dget_dset_self]
    exact pickFallback_comment_eq avail hav

/-! ## Claim theorems -/

/-- C1: for every declared field mapping and every target schema, mapping
resolution inside `bulk_add_highlights` raises the no-fields
`AnkiConnectError` (before anything is submitted: the call returns the
error and no `Export` outcome exists) iff the live field list is empty;
when it is nonempty, the resolved mapping maps both `highlight` and
`comment` to field names drawn from the live field list. -/
theorem claim_C1 (avail : List String) (fm : List (String × String))
    (highlights : List (List (String × String))) (allowDup : Bool)
    (frontContent : String) (orc : Nat → BatchResp) :
    ((∃ e, bulk_add_highlights avail fm highlights allowDup frontContent orc
        = Except.error e) ↔ avail = [])
    ∧ (avail = [] → bulk_add_highlights avail fm highlights allowDup frontContent orc
        = Except.error "Selected note type has no fields.")
    ∧ (∀ rm, resolveMapping fm avail = Except.ok rm →
        dmem rm "highlight" = true ∧ dmem rm "comment" = true ∧
        dget rm "highlight" "" ∈ avail ∧ dget rm "comment" "" ∈ avail) := by
  have herr : avail = [] → bulk_add_highlights avail fm highlights allowDup frontContent orc
      = Except.error "Selected note type has no fields." := by
    intro h
    subst h
    simp [bulk_add_highlights, resolveMapping_error_of_nil]
  refine ⟨⟨?_, fun h => ⟨_, herr h⟩⟩, herr, ?_⟩
  · rintro ⟨e, he⟩
    by_contra hav
    rcases resolveMapping_ok_of_ne_nil fm hav with ⟨rm, hok⟩
    rw [bulk_add_highlights, hok] at he
    exact absurd he (by simp)
  · intro rm hok
    rcases resolveMapping_invariants hok with ⟨_, hhigh, hcom, _⟩
    exact ⟨hhigh, hcom, resolveMapping_highlight_mem hok, resolveMapping_comment_mem hok⟩

/-- C1 witness: a singleton schema; resolution succeeds and maps both keys
into the schema, and the export does not error. -/
theorem claim_C1_witness :
    dmem [("highlight", "Front"), ("comment", "Back")] "highlight" = true
    ∧ dmem [("highlight", "Front"), ("comment", "Back")] "comment" = true
    ∧ dget [("highlight", "Front"), ("comment", "Back")] "highlight" "" ∈ ["Back", "Front"]
    ∧ dget [("highlight", "Front"), ("comment", "Back")] "comment" "" ∈ ["Back", "Front"] :=
  (claim_C1 ["Back", "Front"] [] [] true "comment"
      (fun _ => ⟨Except.ok [], Except.ok []⟩)).2.2
    [("highlight", "Front"), ("comment", "Back")] rfl

/-- C5 counterexample: with live fields `["Back", "Front"]` and no declared
entries, the still-unmapped `highlight` key is forced to `"Front"` — not to
the first available field `"Back"` as the claim states. -/
theorem claim_C5_counterexample :
    resolveMapping [] ["Back", "Front"]
      = Except.ok [("highlight", "Front"), ("comment", "Back")]
    ∧ dget [("highlight", "Front"), ("comment", "Back")] "highlight" ""
        ≠ ["Back", "Front"].headD "" := by
  constructor
  · rfl
  · decide

/-- C5 (amended): for a nonempty live field list, a still-unmapped
`highlight` key is forced to the field literally named `"Front"` when that
is present and only otherwise to the first available field; a
still-unmapped `comment` key is forced to `"Back"` if present, else
`"Front"` if present, else the second available field (the first when the
schema has a single field). -/
theorem claim_C5 (fm : List (String × String)) (avail : List String)
    (rm : List (String × String))
    (hres : resolveMapping fm avail = Except.ok rm)
    (hh : ∀ p ∈ fm, p.1 ≠ "highlight") (hc : ∀ p ∈ fm, p.1 ≠ "comment") :
    dget rm "highlight" "" = (if avail.contains "Front" then "Front" else avail.headD "")
    ∧ dget rm "comment" ""
        = (if avail.contains "Back" then "Back"
           else if avail.contains "Front" then "Front"
           else avail.getD (min 1 (avail.length - 1)) "") :=
  resolveMapping_forced hres hh hc

/-- C5 witness: a one-field schema without `Front`/`Back`; both forced
targets land on that field. -/
theorem claim_C5_witness :
    dget [("page", "A"), ("highlight", "A"), ("comment", "A")] "highlight" ""
      = (if ["A"].contains "Front" then "Front" else ["A"].headD "")
    ∧ dget [("page", "A"), ("highlight", "A"), ("comment", "A")] "comment" ""
        = (if ["A"].contains "Back" then "Back"
           else if ["A"].contains "Front" then "Front"
           else ["A"].getD (min 1 (["A"].length - 1)) "") :=
  claim_C5 [("page", "X")] ["A"] [("page", "A"), ("highlight", "A"), ("comment", "A")]
    rfl (by decide) (by decide)

/-- C2 counterexample: for the claimed scenario (fields `["Front","Back"]`,
mapping `highlight→Front, comment→Back, page→Back, chapter→Back`, record
`{text:"Quote", comment:"", page:"12", chapter:"Ch1"}`), the materialized
payload is `{Front:"", Back:"Quote"}` — not the claimed
`{Front:"Quote", Back:"Quote<sep>12<sep>Ch1"}`: the append loop runs
*before* the comment-copy guard, and the guard *overwrites* the comment
field (and the loop reads the `highlight` key, which this record lacks). -/
theorem claim_C2_counterexample :
    resolveMapping [("highlight", "Front"), ("comment", "Back"), ("page", "Back"),
        ("chapter", "Back")] ["Front", "Back"]
      = Except.ok [("highlight", "Front"), ("comment", "Back"), ("page", "Back"),
        ("chapter", "Back")]
    ∧ (mkNote ["Front", "Back"]
          [("highlight", "Front"), ("comment", "Back"), ("page", "Back"), ("chapter", "Back")]
          "comment"
          [("text", "Quote"), ("comment", ""), ("page", "12"), ("chapter", "Ch1")]).map Prod.fst
        = some [("Front", ""), ("Back", "Quote")]
    ∧ ([("Front", ""), ("Back", "Quote")] : List (String × String))
        ≠ [("Front", "Quote"), ("Back", "Quote" ++ sep ++ "12" ++ sep ++ "Ch1")] := by
  refine ⟨rfl, rfl, ?_⟩
  decide

/-- C2 (amended): in that scenario the payload is exactly
`{Front:"", Back:"Quote"}`: the mapping loop first appends `"12"` and
`"Ch1"` into `Back` (finding nothing under the `highlight` key, since the
record stores its text under `text`), and the comment-copy guard then
fires — after the loop — and overwrites `Back` with the highlight text. -/
theorem claim_C2 :
    mkNote ["Front", "Back"]
        [("highlight", "Front"), ("comment", "Back"), ("page", "Back"), ("chapter", "Back")]
        "comment"
        [("text", "Quote"), ("comment", ""), ("page", "12"), ("chapter", "Ch1")]
      = some ([("Front", ""), ("Back", "Quote")],
          { front := "", back := "Quote", highlight := "Quote", comment := "",
            book := "", chapter := "Ch1", page := "12" }) := rfl

/-- C4: when two logical keys with nonempty record values `a` (earlier in
mapping order) and `b` (later) are routed to the same live field `f`, and
no other mapping entry contributes to `f`, the loop materializes `f` as
`a ++ "<br><br>" ++ b`: the later value is appended after the earlier one,
never overwriting it and never in the reverse order. -/
theorem claim_C4 (avail : List String) (hd : List (String × String))
    (m1 m2 m3 : List (String × String)) (k1 k2 f a b : String)
    (hf : avail.contains f = true)
    (ha : dget hd k1 "" = a) (hb : dget hd k2 "" = b)
    (hane : a ≠ "") (hbne : b ≠ "")
    (hm1 : ∀ p ∈ m1, p.2 = f → dget hd p.1 "" = "")
    (hm2 : ∀ p ∈ m2, p.2 = f → dget hd p.1 "" = "")
    (hm3 : ∀ p ∈ m3, p.2 = f → dget hd p.1 "" = "") :
    dget (applyMapping avail (m1 ++ (k1, f) :: m2 ++ (k2, f) :: m3) hd (initFields avail)) f ""
      = a ++ sep ++ b := by
  have hsplit : m1 ++ (k1, f) :: m2 ++ (k2, f) :: m3
      = m1 ++ ((k1, f) :: (m2 ++ (k2, f) :: m3)) := by simp
  rw [hsplit, applyMapping_append]
  have h1 : dget (applyMapping avail m1 hd (initFields avail)) f "" = "" := by
    rw [applyMapping_preserve _ _ _ _ _ hm1, dget_initFields]
  have hcons1 : applyMapping avail ((k1, f) :: (m2 ++ (k2, f) :: m3)) hd
        (applyMapping avail m1 hd (initFields avail))
      = applyMapping avail (m2 ++ (k2, f) :: m3) hd
        (applyEntry avail hd (applyMapping avail m1 hd (initFields avail)) (k1, f)) := rfl
  rw [hcons1, applyMapping_append]
  have h2 : dget (applyEntry avail hd (applyMapping avail m1 hd (initFields avail)) (k1, f)) f ""
      = a := by
    rw [applyEntry_at _ _ _ _ _ hf (by rw [ha]; exact hane), h1, ha]
    simp
  have h3 : dget (applyMapping avail m2 hd
      (applyEntry avail hd (applyMapping avail m1 hd (initFields avail)) (k1, f))) f "" = a := by
    rw [applyMapping_preserve _ _ _ _ _ hm2, h2]
  have hcons2 : applyMapping avail ((k2, f) :: m3) hd
        (applyMapping avail m2 hd
          (applyEntry avail hd (applyMapping avail m1 hd (initFields avail)) (k1, f)))
      = applyMapping avail m3 hd
        (applyEntry avail hd
          (applyMapping avail m2 hd
            (applyEntry avail hd (applyMapping avail m1 hd (initFields avail)) (k1, f)))
          (k2, f)) := rfl
  rw [hcons2, applyMapping_preserve _ _ _ _ _ hm3,
    applyEntry_at _ _ _ _ _ hf (by rw [hb]; exact hbne), h3, hb]
  simp [hane]

/-- C4 witness: two keys `x`, `y` routed to the single field `F`. -/
theorem claim_C4_witness :
    dget (applyMapping ["F"] ([] ++ ("x", "F") :: [] ++ ("y", "F") :: [])
        [("x", "A"), ("y", "B")] (initFields ["F"])) "F" ""
      = "A" ++ sep ++ "B" :=
  claim_C4 ["F"] [("x", "A"), ("y", "B")] [] [] [] "x" "y" "F" "A" "B"
    (by decide) rfl rfl (by decide) (by decide) (by simp) (by simp) (by simp)

/-! ## Batch slicing lemmas -/

theorem chunks50Go_congr :
    ∀ (f1 f2 : Nat) (l : List α), l.length ≤ f1 → l.length ≤ f2 →
      chunks50Go f1 l = chunks50Go f2 l := by
  intro f1
  induction f1 with
  | zero =>
      intro f2 l h1 h2
      have : l = [] := List.eq_nil_of_length_eq_zero (Nat.le_zero.1 h1)
      subst this
      cases f2 <;> rfl
  | succ f ih =>
      intro f2 l h1 h2
      cases l with
      | nil => cases f2 <;> rfl
      | cons x xs =>
          cases f2 with
          | zero => simp at h2
          | succ f2' =>
              show ((x :: xs).take 50 :: chunks50Go f ((x :: xs).drop 50))
                = ((x :: xs).take 50 :: chunks50Go f2' ((x :: xs).drop 50))
              have hlen : ((x :: xs).drop 50).length ≤ f := by
                simp only [List.length_drop, List.length_cons] at h1 ⊢
                omega
              have hlen2 : ((x :: xs).drop 50).length ≤ f2' := by
                simp only [List.length_drop, List.length_cons] at h2 ⊢
                omega
              rw [ih f2' _ hlen hlen2]

theorem chunks50_eq (l : List α) :
    chunks50 l = if l.isEmpty then [] else l.take 50 :: chunks50 (l.drop 50) := by
  cases l with
  | nil => rfl
  | cons x xs =>
      show chunks50Go (x :: xs).length (x :: xs) = _
      have hstep : chunks50Go (x :: xs).length (x :: xs)
          = (x :: xs).take 50 :: chunks50Go xs.length ((x :: xs).drop 50) := rfl
      rw [hstep]
      have : chunks50Go xs.length ((x :: xs).drop 50)
          = chunks50 ((x :: xs).drop 50) := by
        refine chunks50Go_congr _ _ _ ?_ (Nat.le_refl _)
        simp only [List.length_drop, List.length_cons]
        omega
      rw [this]
      rfl

theorem chunks50_nil : chunks50 ([] : List α) = [] := rfl

theorem chunks50_flatten (l : List α) : (chunks50 l).flatten = l := by
  have H : ∀ n (l : List α), l.length ≤ n → (chunks50 l).flatten = l := by
    intro n
    induction n with
    | zero =>
        intro l hl
        have : l = [] := List.eq_nil_of_length_eq_zero (Nat.le_zero.1 hl)
        rw [this, chunks50_nil]
        rfl
    | succ n ih =>
        intro l hl
        by_cases hnil : l.isEmpty
        · have : l = [] := by simpa using hnil
          rw [this, chunks50_nil]
          rfl
        · rw [chunks50_eq, if_neg hnil]
          have hlne : l ≠ [] := by simpa using hnil
          have hdrop : (l.drop 50).length ≤ n := by
            have h1 : 0 < l.length := List.length_pos.2 hlne
            simp only [List.length_drop]
            omega
          rw [List.flatten_cons, ih (l.drop 50) hdrop, List.take_append_drop]
  exact H l.length l (Nat.le_refl _)

theorem chunks50_sum_length (l : List α) :
    ((chunks50 l).map List.length).sum = l.length := by
  have := congrArg List.length (chunks50_flatten l)
  simpa [List.length_flatten] using this

theorem chunks50_length (l : List α) :
    (chunks50 l).length = (l.length + 49) / 50 := by
  have H : ∀ n (l : List α), l.length ≤ n → (chunks50 l).length = (l.length + 49) / 50 := by
    intro n
    induction n with
    | zero =>
        intro l hl
        have : l = [] := List.eq_nil_of_length_eq_zero (Nat.le_zero.1 hl)
        rw [this, chunks50_nil]
        simp only [List.length_nil]
    | succ n ih =>
        intro l hl
        by_cases hnil : l.isEmpty
        · have : l = [] := by simpa using hnil
          rw [this, chunks50_nil]
          simp only [List.length_nil]
        · rw [chunks50_eq, if_neg hnil]
          have hlne : l ≠ [] := by simpa using hnil
          have h1 : 0 < l.length := List.length_pos.2 hlne
          have hdrop : (l.drop 50).length ≤ n := by
            simp only [List.length_drop]
            omega
          rw [List.length_cons, ih (l.drop 50) hdrop, List.length_drop]
          omega
  exact H l.length l (Nat.le_refl _)

theorem chunks50_ne_nil (l : List α) : ∀ c ∈ chunks50 l, c ≠ [] := by
  have H : ∀ n (l : List α), l.length ≤ n → ∀ c ∈ chunks50 l, c ≠ [] := by
    intro n
    induction n with
    | zero =>
        intro l hl
        have : l = [] := List.eq_nil_of_length_eq_zero (Nat.le_zero.1 hl)
        rw [this, chunks50_nil]
        simp
    | succ n ih =>
        intro l hl c hc
        by_cases hnil : l.isEmpty
        · have : l = [] := by simpa using hnil
          rw [this, chunks50_nil] at hc
          simp at hc
        · rw [chunks50_eq, if_neg hnil] at hc
          have hlne : l ≠ [] := by simpa using hnil
          have h1 : 0 < l.length := List.length_pos.2 hlne
          rcases List.mem_cons.1 hc with h | h
          · rw [h]
            intro htake
            have h2 := congrArg List.length htake
            rw [List.length_take] at h2
            simp only [List.length_nil] at h2
            omega
          · refine ih (l.drop 50) ?_ c h
            simp only [List.length_drop]
            omega
  exact H l.length l (Nat.le_refl _)

theorem chunks50_mem {l : List α} {c : List α} {x : α}
    (hc : c ∈ chunks50 l) (hx : x ∈ c) : x ∈ l := by
  rw [← chunks50_flatten l]
  exact List.mem_flatten.2 ⟨c, hc, hx⟩

/-! ## Preparation-loop characterization -/

theorem prep_nd (avail : List String) (rm : List (String × String)) (fc : String)
    (total : Nat) (hs : List (List (String × String))) (st : PipeState) :
    (hs.foldl (prepStep avail rm fc total) st).nd
      = st.nd ++ hs.filterMap (mkNote avail rm fc) := by
  induction hs generalizing st with
  | nil => simp
  | cons hd rest ih =>
      simp only [List.foldl_cons, List.filterMap_cons]
      cases hmk : mkNote avail rm fc hd with
      | none => simp [prepStep, hmk, ih]
      | some nd => simp [prepStep, hmk, ih]

theorem prep_skipped (avail : List String) (rm : List (String × String)) (fc : String)
    (total : Nat) (hs : List (List (String × String))) (st : PipeState) :
    (hs.foldl (prepStep avail rm fc total) st).skipped
      = st.skipped + hs.countP (fun h => (mkNote avail rm fc h).isNone) := by
  induction hs generalizing st with
  | nil => simp
  | cons hd rest ih =>
      simp only [List.foldl_cons, List.countP_cons]
      cases hmk : mkNote avail rm fc hd with
      | none => simp [prepStep, hmk, ih]; omega
      | some nd => simp [prepStep, hmk, ih]

theorem prep_processed (avail : List String) (rm : List (String × String)) (fc : String)
    (total : Nat) (hs : List (List (String × String))) (st : PipeState) :
    (hs.foldl (prepStep avail rm fc total) st).processed
      = st.processed + hs.countP (fun h => (mkNote avail rm fc h).isNone) := by
  induction hs generalizing st with
  | nil => simp
  | cons hd rest ih =>
      simp only [List.foldl_cons, List.countP_cons]
      cases hmk : mkNote avail rm fc hd with
      | none => simp [prepStep, hmk, ih]; omega
      | some nd => simp [prepStep, hmk, ih]

theorem prep_frame (avail : List String) (rm : List (String × String)) (fc : String)
    (total : Nat) (hs : List (List (String × String))) (st : PipeState) :
    (hs.foldl (prepStep avail rm fc total) st).success = st.success
    ∧ (hs.foldl (prepStep avail rm fc total) st).fail = st.fail
    ∧ (hs.foldl (prepStep avail rm fc total) st).errors = st.errors
    ∧ (hs.foldl (prepStep avail rm fc total) st).submitted = st.submitted := by
  induction hs generalizing st with
  | nil => exact ⟨rfl, rfl, rfl, rfl⟩
  | cons hd rest ih =>
      simp only [List.foldl_cons]
      cases hmk : mkNote avail rm fc hd with
      | none => simpa [prepStep, hmk] using ih _
      | some nd => simpa [prepStep, hmk] using ih _

theorem prep_reports_len (avail : List String) (rm : List (String × String)) (fc : String)
    (total : Nat) (hs : List (List (String × String))) (st : PipeState) :
    (hs.foldl (prepStep avail rm fc total) st).reports.length
      = st.reports.length + hs.countP (fun h => (mkNote avail rm fc h).isNone) := by
  induction hs generalizing st with
  | nil => simp
  | cons hd rest ih =>
      simp only [List.foldl_cons, List.countP_cons]
      cases hmk : mkNote avail rm fc hd with
      | none => simp [prepStep, hmk, ih]; omega
      | some nd => simp [prepStep, hmk, ih]

theorem length_filterMap_add_countP_isNone {α β : Type} (f : α → Option β) (hs : List α) :
    (hs.filterMap f).length + hs.countP (fun h => (f h).isNone) = hs.length := by
  induction hs with
  | nil => simp
  | cons hd rest ih =>
      simp only [List.filterMap_cons, List.countP_cons]
      cases hf : f hd with
      | none => simp [hf]; omega
      | some v => simp [hf]; omega

theorem filterMap_filter_not {α β : Type} (f : α → Option β) (p : α → Bool)
    (hs : List α) (h : ∀ a ∈ hs, p a = true → f a = none) :
    hs.filterMap f = (hs.filter (fun a => !p a)).filterMap f := by
  induction hs with
  | nil => simp
  | cons hd rest ih =>
      have ih' := ih (fun a ha hp => h a (List.mem_cons_of_mem _ ha) hp)
      cases hp : p hd with
      | true => simp [List.filterMap_cons, List.filter_cons, hp,
          h hd (by simp) hp, ih']
      | false => simp [List.filterMap_cons, List.filter_cons, hp, ← ih']

/-! ## Batch-loop characterization -/

theorem prefilter_spec (b : Nat) (chunk : List (List (String × String) × Debug))
    (elig : List Bool) (st : PipeState) :
    prefilter b chunk elig st
      = (((chunk.zip elig).filter (fun pe => pe.2)).map Prod.fst,
         { st with
             fail := st.fail + ((chunk.zip elig).filter (fun pe => !pe.2)).length,
             errors := st.errors
               ++ ((chunk.zip elig).filter (fun pe => !pe.2)).map (fun pe => dupMsg b pe.1.2) }) := by
  have H : ∀ (z : List ((List (String × String) × Debug) × Bool))
      (acc : List (List (String × String) × Debug)) (st : PipeState),
      z.foldl (fun acc pe =>
          if pe.2 then (acc.1 ++ [pe.1], acc.2)
          else (acc.1,
            { acc.2 with fail := acc.2.fail + 1,
                         errors := acc.2.errors ++ [dupMsg b pe.1.2] })) (acc, st)
        = (acc ++ (z.filter (fun pe => pe.2)).map Prod.fst,
           { st with fail := st.fail + (z.filter (fun pe => !pe.2)).length,
                     errors := st.errors
                       ++ (z.filter (fun pe => !pe.2)).map (fun pe => dupMsg b pe.1.2) }) := by
    intro z
    induction z with
    | nil => intro acc st; simp
    | cons pe rest ih =>
        intro acc st
        cases hb : pe.2 with
        | true =>
            simp only [List.foldl_cons, hb, if_true, List.filter_cons, Bool.not_true]
            rw [ih]
            simp
        | false =>
            simp only [List.foldl_cons, hb, Bool.false_eq_true, if_false, List.filter_cons,
              Bool.not_false]
            rw [ih]
            simp [Nat.add_assoc]
            omega
  exact H (chunk.zip elig) [] st

theorem countResults_frame (b : Nat) (dbgs : List Debug) (results : List (Option Nat))
    (st : PipeState) :
    (countResults b dbgs results st).processed = st.processed
    ∧ (countResults b dbgs results st).reports = st.reports
    ∧ (countResults b dbgs results st).nd = st.nd
    ∧ (countResults b dbgs results st).skipped = st.skipped
    ∧ (countResults b dbgs results st).submitted = st.submitted := by
  have H2 : ∀ (results : List (Option Nat)) (j : Nat) (st : PipeState),
      let r := (results.foldl (fun (acc : Nat × PipeState) r =>
        match r with
        | some _ => (acc.1 + 1, { acc.2 with success := acc.2.success + 1 })
        | none =>
            (acc.1 + 1,
              { acc.2 with fail := acc.2.fail + 1,
                           errors := acc.2.errors
                             ++ [failMsg b acc.1 (dbgs.getD acc.1 default)] }))
        (j, st)).2
      r.processed = st.processed ∧ r.reports = st.reports ∧ r.nd = st.nd
        ∧ r.skipped = st.skipped ∧ r.submitted = st.submitted := by
    intro results
    induction results with
    | nil => intro j st; exact ⟨rfl, rfl, rfl, rfl, rfl⟩
    | cons r rest ih =>
        intro j st
        cases r with
        | some v => simpa using ih (j + 1) _
        | none => simpa using ih (j + 1) _
  exact H2 results 0 st

theorem eligPhase_frame (orc : Nat → BatchResp) (allowDup : Bool) (b : Nat)
    (st : PipeState) (chunk : List (List (String × String) × Debug)) :
    (eligPhase orc allowDup b st chunk).2.processed = st.processed
    ∧ (eligPhase orc allowDup b st chunk).2.reports = st.reports
    ∧ (eligPhase orc allowDup b st chunk).2.nd = st.nd
    ∧ (eligPhase orc allowDup b st chunk).2.skipped = st.skipped
    ∧ (eligPhase orc allowDup b st chunk).2.submitted = st.submitted
    ∧ (eligPhase orc allowDup b st chunk).2.success = st.success := by
  unfold eligPhase
  cases allowDup with
  | true => exact ⟨rfl, rfl, rfl, rfl, rfl, rfl⟩
  | false =>
      cases hca : (orc b).canAdd with
      | ok elig =>
          simp [prefilter_spec]
      | error u => exact ⟨rfl, rfl, rfl, rfl, rfl, rfl⟩

/-- Every eligible record comes from the batch. -/
theorem eligPhase_sub (orc : Nat → BatchResp) (allowDup : Bool) (b : Nat)
    (st : PipeState) (chunk : List (List (String × String) × Debug)) :
    ∀ nd ∈ (eligPhase orc allowDup b st chunk).1, nd ∈ chunk := by
  unfold eligPhase
  cases allowDup with
  | true => exact fun nd h => h
  | false =>
      cases hca : (orc b).canAdd with
      | ok elig =>
          simp only [Bool.false_eq_true, if_false, prefilter_spec]
          intro nd h
          rcases List.mem_map.1 h with ⟨pe, hpe, hnd⟩
          have := List.of_mem_filter hpe
          have hz : pe ∈ chunk.zip elig := List.mem_of_mem_filter hpe
          have := List.of_mem_zip hz
          rw [← hnd]
          exact this.1
      | error u => exact fun nd h => h

theorem submitPhase_frame (orc : Nat → BatchResp) (total b : Nat)
    (chunk : List (List (String × String) × Debug))
    (ep : List (List (String × String) × Debug) × PipeState) :
    (submitPhase orc total b chunk ep).processed = ep.2.processed + chunk.length
    ∧ (submitPhase orc total b chunk ep).reports
        = ep.2.reports ++ [(ep.2.processed + chunk.length, total)]
    ∧ (submitPhase orc total b chunk ep).nd = ep.2.nd
    ∧ (submitPhase orc total b chunk ep).skipped = ep.2.skipped := by
  unfold submitPhase
  by_cases he : ep.1.isEmpty
  · simp [he]
  · simp only [he, if_false]
    cases har : (orc b).addRes with
    | ok results =>
        simp only []
        rcases countResults_frame b (ep.1.map Prod.snd) results
          { ep.2 with submitted := ep.2.submitted ++ [ep.1.map Prod.fst] } with
          ⟨hp, hr, hn, hk, _⟩
        refine ⟨?_, ?_, ?_, ?_⟩ <;> simp [hp, hr, hn, hk]
    | error e =>
        simp only []
        exact ⟨rfl, rfl, rfl, rfl⟩

theorem runOneBatch_frame (orc : Nat → BatchResp) (allowDup : Bool) (total b : Nat)
    (st : PipeState) (chunk : List (List (String × String) × Debug)) :
    (runOneBatch orc allowDup total b st chunk).processed = st.processed + chunk.length
    ∧ (runOneBatch orc allowDup total b st chunk).reports
        = st.reports ++ [(st.processed + chunk.length, total)]
    ∧ (runOneBatch orc allowDup total b st chunk).nd = st.nd
    ∧ (runOneBatch orc allowDup total b st chunk).skipped = st.skipped := by
  unfold runOneBatch
  rcases eligPhase_frame orc allowDup b st chunk with ⟨hp, hr, hn, hk, _, _⟩
  rcases submitPhase_frame orc total b chunk (eligPhase orc allowDup b st chunk) with
    ⟨hp2, hr2, hn2, hk2⟩
  exact ⟨by rw [hp2, hp], by rw [hr2, hr, hp], by rw [hn2, hn], by rw [hk2, hk]⟩

theorem runBatches_cons (orc : Nat → BatchResp) (allowDup : Bool) (total : Nat)
    (chunk : List (List (String × String) × Debug))
    (rest : List (List (List (String × String) × Debug))) (b : Nat) (st : PipeState) :
    runBatches orc allowDup total (chunk :: rest) b st
      = runBatches orc allowDup total rest (b + 1)
          (runOneBatch orc allowDup total b st chunk) := rfl

theorem runBatches_processed (orc : Nat → BatchResp) (allowDup : Bool) (total : Nat)
    (chunks : List (List (List (String × String) × Debug))) (b : Nat) (st : PipeState) :
    (runBatches orc allowDup total chunks b st).processed
      = st.processed + (chunks.map List.length).sum := by
  induction chunks generalizing b st with
  | nil => simp [runBatches]
  | cons chunk rest ih =>
      rw [runBatches_cons, ih]
      rcases runOneBatch_frame orc allowDup total b st chunk with ⟨hp, _, _, _⟩
      rw [hp]
      simp [Nat.add_assoc]

theorem runBatches_reports_len (orc : Nat → BatchResp) (allowDup : Bool) (total : Nat)
    (chunks : List (List (List (String × String) × Debug))) (b : Nat) (st : PipeState) :
    (runBatches orc allowDup total chunks b st).reports.length
      = st.reports.length + chunks.length := by
  induction chunks generalizing b st with
  | nil => simp [runBatches]
  | cons chunk rest ih =>
      rw [runBatches_cons, ih]
      rcases runOneBatch_frame orc allowDup total b st chunk with ⟨_, hr, _, _⟩
      rw [hr]
      simp
      omega

theorem runBatches_frame (orc : Nat → BatchResp) (allowDup : Bool) (total : Nat)
    (chunks : List (List (List (String × String) × Debug))) (b : Nat) (st : PipeState) :
    (runBatches orc allowDup total chunks b st).nd = st.nd
    ∧ (runBatches orc allowDup total chunks b st).skipped = st.skipped := by
  induction chunks generalizing b st with
  | nil => exact ⟨rfl, rfl⟩
  | cons chunk rest ih =>
      rw [runBatches_cons]
      rcases runOneBatch_frame orc allowDup total b st chunk with ⟨_, _, hn, hk⟩
      rcases ih (b + 1) (runOneBatch orc allowDup total b st chunk) with ⟨hn2, hk2⟩
      exact ⟨by rw [hn2, hn], by rw [hk2, hk]⟩

/-! ## Progress-report invariant -/

theorem ReportInv_step {st st' : PipeState} {c total : Nat} (hc : 1 ≤ c)
    (hrep : st'.reports = st.reports ++ [(st.processed + c, total)])
    (hproc : st'.processed = st.processed + c) (h : ReportInv st) : ReportInv st' := by
  rcases h with ⟨hchain, hle, hlast⟩
  refine ⟨?_, ?_, ?_⟩
  · rw [hrep]
    simp only [List.map_append, List.map_cons, List.map_nil]
    rw [List.chain'_append]
    refine ⟨hchain, by simp, ?_⟩
    intro x hx y hy
    simp only [List.head?_cons, Option.mem_def, Option.some.injEq] at hy
    subst hy
    have hxmem : x ∈ st.reports.map Prod.fst := by
      cases hgl : (st.reports.map Prod.fst).getLast? with
      | none => simp [hgl] at hx
      | some z =>
          simp only [hgl, Option.mem_def, Option.some.injEq] at hx
          rw [← hx]
          rcases List.mem_getLast?_eq_getLast
            (show z ∈ (st.reports.map Prod.fst).getLast? from by rw [hgl]; rfl)
            with ⟨hne, heq⟩
          rw [heq]
          exact List.getLast_mem hne
    have := hle x hxmem
    omega
  · intro d hd
    rw [hrep] at hd
    simp only [List.map_append, List.map_cons, List.map_nil, List.mem_append,
      List.mem_cons, List.not_mem_nil, or_false] at hd
    rcases hd with hd | hd
    · have := hle d hd
      omega
    · omega
  · rw [hrep, hproc]
    simp only [List.map_append, List.map_cons, List.map_nil]
    rw [List.getLastD_concat]

theorem ReportInv_frame {st st' : PipeState}
    (hrep : st'.reports = st.reports) (hproc : st'.processed = st.processed)
    (h : ReportInv st) : ReportInv st' := by
  rcases h with ⟨hchain, hle, hlast⟩
  rw [ReportInv, hrep, hproc]
  exact ⟨hchain, hle, hlast⟩

theorem prep_ReportInv (avail : List String) (rm : List (String × String)) (fc : String)
    (total : Nat) (hs : List (List (String × String))) (st : PipeState)
    (h : ReportInv st) :
    ReportInv (hs.foldl (prepStep avail rm fc total) st) := by
  induction hs generalizing st with
  | nil => exact h
  | cons hd rest ih =>
      simp only [List.foldl_cons]
      refine ih _ ?_
      cases hmk : mkNote avail rm fc hd with
      | none =>
          simp only [prepStep, hmk]
          exact ReportInv_step (Nat.le_refl 1) rfl rfl h
      | some nd =>
          simp only [prepStep, hmk]
          exact ReportInv_frame rfl rfl h

theorem runBatches_ReportInv (orc : Nat → BatchResp) (allowDup : Bool) (total : Nat)
    (chunks : List (List (List (String × String) × Debug))) (b : Nat) (st : PipeState)
    (hne : ∀ c ∈ chunks, c ≠ []) (h : ReportInv st) :
    ReportInv (runBatches orc allowDup total chunks b st) := by
  induction chunks generalizing b st with
  | nil => exact h
  | cons chunk rest ih =>
      rw [runBatches_cons]
      refine ih (b + 1) _ (fun c hc => hne c (List.mem_cons_of_mem _ hc)) ?_
      rcases runOneBatch_frame orc allowDup total b st chunk with ⟨hp, hr, _, _⟩
      have hlen : 1 ≤ chunk.length := by
        have := hne chunk (by simp)
        have := List.length_pos.2 this
        omega
      exact ReportInv_step hlen hr hp h

/-! ## Submitted batches come from prepared notes -/

theorem submitPhase_submitted (orc : Nat → BatchResp) (total b : Nat)
    (chunk : List (List (String × String) × Debug))
    (ep : List (List (String × String) × Debug) × PipeState) :
    ∀ batch ∈ (submitPhase orc total b chunk ep).submitted,
      batch ∈ ep.2.submitted ∨ batch = ep.1.map Prod.fst := by
  unfold submitPhase
  by_cases he : ep.1.isEmpty
  · simp only [he, if_true]
    exact fun batch h => Or.inl h
  · simp only [he, if_false]
    cases har : (orc b).addRes with
    | ok results =>
        simp only []
        intro batch h
        rcases countResults_frame b (ep.1.map Prod.snd) results
          { ep.2 with submitted := ep.2.submitted ++ [ep.1.map Prod.fst] } with
          ⟨_, _, _, _, hs⟩
        rw [show (countResults b (ep.1.map Prod.snd) results
            { ep.2 with submitted := ep.2.submitted ++ [ep.1.map Prod.fst] }).submitted
          = ep.2.submitted ++ [ep.1.map Prod.fst] from hs] at h
        rcases List.mem_append.1 h with h | h
        · exact Or.inl h
        · exact Or.inr (by simpa using h)
    | error e =>
        simp only []
        intro batch h
        rcases List.mem_append.1 h with h | h
        · exact Or.inl h
        · exact Or.inr (by simpa using h)

theorem runOneBatch_submitted (orc : Nat → BatchResp) (allowDup : Bool) (total b : Nat)
    (st : PipeState) (chunk : List (List (String × String) × Debug)) :
    ∀ batch ∈ (runOneBatch orc allowDup total b st chunk).submitted,
      batch ∈ st.submitted ∨ ∀ pay ∈ batch, ∃ dbg, (pay, dbg) ∈ chunk := by
  intro batch h
  rcases submitPhase_submitted orc total b chunk (eligPhase orc allowDup b st chunk) batch h
    with h' | h'
  · rcases eligPhase_frame orc allowDup b st chunk with ⟨_, _, _, _, hs, _⟩
    rw [hs] at h'
    exact Or.inl h'
  · right
    intro pay hpay
    rw [h'] at hpay
    rcases List.mem_map.1 hpay with ⟨nd, hnd, hfst⟩
    refine ⟨nd.2, ?_⟩
    have := eligPhase_sub orc allowDup b st chunk nd hnd
    rw [← hfst]
    simpa using this

theorem runBatches_submitted (orc : Nat → BatchResp) (allowDup : Bool) (total : Nat)
    (chunks : List (List (List (String × String) × Debug))) (b : Nat) (st : PipeState)
    (ns : List (List (String × String)))
    (hst : ∀ batch ∈ st.submitted, ∀ pay ∈ batch, pay ∈ ns)
    (hch : ∀ chunk ∈ chunks, ∀ nd ∈ chunk, nd.1 ∈ ns) :
    ∀ batch ∈ (runBatches orc allowDup total chunks b st).submitted,
      ∀ pay ∈ batch, pay ∈ ns := by
  induction chunks generalizing b st with
  | nil => exact hst
  | cons chunk rest ih =>
      rw [runBatches_cons]
      refine ih (b + 1) _ ?_ (fun c hc => hch c (List.mem_cons_of_mem _ hc))
      intro batch hb pay hpay
      rcases runOneBatch_submitted orc allowDup total b st chunk batch hb with h | h
      · exact hst batch h pay hpay
      · rcases h pay hpay with ⟨dbg, hdbg⟩
        have := hch chunk (by simp) (pay, dbg) hdbg
        simpa using this

/-! ## Finalization lemmas -/

theorem finalizeState_fail (st : PipeState) :
    (finalizeState st).fail = st.fail + st.skipped := by
  unfold finalizeState
  by_cases h : st.skipped ≠ 0
  · rw [if_pos h]
  · rw [if_neg h]
    have : st.skipped = 0 := by omega
    rw [this, Nat.add_zero]

theorem finalizeState_errors (st : PipeState) :
    (finalizeState st).errors
      = st.errors ++ (if st.skipped ≠ 0 then [skipMsg st.skipped] else []) := by
  unfold finalizeState
  by_cases h : st.skipped ≠ 0
  · rw [if_pos h, if_pos h]
  · rw [if_neg h, if_neg h]
    simp

theorem finalizeState_reports (st : PipeState) :
    (finalizeState st).reports = st.reports := by
  unfold finalizeState
  by_cases h : st.skipped ≠ 0
  · rw [if_pos h]
  · rw [if_neg h]

theorem finalizeState_submitted (st : PipeState) :
    (finalizeState st).submitted = st.submitted := by
  unfold finalizeState
  by_cases h : st.skipped ≠ 0
  · rw [if_pos h]
  · rw [if_neg h]

theorem bulk_ok_destruct {avail : List String} {fm : List (String × String)}
    {hs : List (List (String × String))} {allowDup : Bool} {fc : String}
    {orc : Nat → BatchResp} {ex : Export}
    (hok : bulk_add_highlights avail fm hs allowDup fc orc = Except.ok ex) :
    ∃ rm, resolveMapping fm avail = Except.ok rm
      ∧ ex = exportOf avail rm fc hs allowDup orc := by
  unfold bulk_add_highlights at hok
  cases hres : resolveMapping fm avail with
  | error e =>
      rw [hres] at hok
      exact absurd hok (by simp)
  | ok rm =>
      rw [hres] at hok
      simp only [Except.ok.injEq] at hok
      exact ⟨rm, rfl, hok.symm⟩

/-- Pointwise: a record is dropped iff it has no textual content (requires
nonempty-named fields so the drop guards behave; see
`mkNote_isSome_of_not_empty`). -/
theorem mkNote_isNone_eq_emptyRecord (avail : List String)
    (rm : List (String × String)) (fc : String)
    (hnoempty : "" ∉ avail)
    (hcmem : dmem rm "comment" = true) (hcval : dget rm "comment" "" ∈ avail)
    (h : List (String × String)) :
    (mkNote avail rm fc h).isNone = emptyRecord h := by
  cases he : emptyRecord h with
  | true =>
      rw [mkNote_eq_none_of_empty avail rm fc h he]
      rfl
  | false =>
      have hrec : ¬ (baseHighlight h = "" ∧ baseComment h = "") := by
        intro hand
        rw [emptyRecord, hand.1, hand.2] at he
        simp at he
      have hsome := mkNote_isSome_of_not_empty avail rm fc h hnoempty hcmem hcval hrec
      cases hmk : mkNote avail rm fc h with
      | none =>
          rw [hmk] at hsome
          simp at hsome
      | some v => rfl

/-- C3: records with no textual content (both `text` and `comment` blank
after stripping) never enter the prepared-note list — hence no submitted
batch — the dropped count is exactly their number, it is added to the
failure count at the end, and one summary diagnostic line reports it. -/
theorem claim_C3 (avail : List String) (fm : List (String × String))
    (hs : List (List (String × String))) (allowDup : Bool) (fc : String)
    (orc : Nat → BatchResp) (ex : Export)
    (hnoempty : "" ∉ avail)
    (hok : bulk_add_highlights avail fm hs allowDup fc orc = Except.ok ex) :
    ex.skipped = (hs.filter emptyRecord).length
    ∧ ex.fail = ex.failPre + ex.skipped
    ∧ ex.errors = ex.errorsPre ++ (if ex.skipped ≠ 0 then [skipMsg ex.skipped] else [])
    ∧ (∀ rm, resolveMapping fm avail = Except.ok rm →
        ex.notes = ((hs.filter (fun h => !emptyRecord h)).filterMap
          (mkNote avail rm fc)).map Prod.fst)
    ∧ (∀ batch ∈ ex.submitted, ∀ pay ∈ batch, pay ∈ ex.notes) := by
  rcases bulk_ok_destruct hok with ⟨rm, hres, hex⟩
  obtain ⟨hav, hhigh, hcmem, hvals⟩ := resolveMapping_invariants hres
  have hcval := resolveMapping_comment_mem hres
  have hiff := mkNote_isNone_eq_emptyRecord avail rm fc hnoempty hcmem hcval
  subst hex
  have hP0 : (({} : PipeState)).skipped = 0 := rfl
  have hskipped : (exportOf avail rm fc hs allowDup orc).skipped
      = (hs.filter emptyRecord).length := by
    show (hs.foldl (prepStep avail rm fc hs.length) {}).skipped = _
    rw [prep_skipped, hP0, Nat.zero_add,
      List.countP_congr (fun x _ => by rw [hiff x]),
      List.countP_eq_length_filter]
  have hBskip : (runBatches orc allowDup hs.length
      (chunks50 (hs.foldl (prepStep avail rm fc hs.length) {}).nd) 0
      (hs.foldl (prepStep avail rm fc hs.length) {})).skipped
      = (hs.foldl (prepStep avail rm fc hs.length) {}).skipped :=
    (runBatches_frame _ _ _ _ _ _).2
  refine ⟨hskipped, ?_, ?_, ?_, ?_⟩
  · show (finalizeState _).fail = _
    rw [finalizeState_fail, hBskip]
    rfl
  · show (finalizeState _).errors = _
    rw [finalizeState_errors, hBskip]
    rfl
  · intro rm' hrm'
    rw [hres] at hrm'
    simp only [Except.ok.injEq] at hrm'
    subst hrm'
    show (hs.foldl (prepStep avail rm fc hs.length) {}).nd.map Prod.fst = _
    rw [prep_nd]
    have hdrop : hs.filterMap (mkNote avail rm fc)
        = (hs.filter (fun h => !emptyRecord h)).filterMap (mkNote avail rm fc) :=
      filterMap_filter_not (mkNote avail rm fc) emptyRecord hs
        (fun a _ ha => mkNote_eq_none_of_empty avail rm fc a ha)
    rw [← hdrop]
    rfl
  · show ∀ batch ∈ (finalizeState _).submitted, _
    rw [finalizeState_submitted]
    intro batch hb pay hpay
    refine runBatches_submitted orc allowDup hs.length _ 0 _
      ((hs.foldl (prepStep avail rm fc hs.length) {}).nd.map Prod.fst) ?_ ?_ batch hb pay hpay
    · intro batch2 hb2
      rcases prep_frame avail rm fc hs.length hs {} with ⟨_, _, _, hsub⟩
      rw [hsub] at hb2
      simp at hb2
    · intro chunk hc nd hnd
      exact List.mem_map_of_mem _ (chunks50_mem hc hnd)

/-- C3 witness: one blank record and one real record; the blank one is
dropped and counted. -/
theorem claim_C3_witness :
    Export.skipped
        { success := 1, fail := 1, errors := ["Skipped 1 empty highlight(s)"],
          reports := [(1, 2), (2, 2)], submitted := [[[("Front", "T"), ("Back", "T")]]],
          notes := [[("Front", "T"), ("Back", "T")]], skipped := 1,
          failPre := 0, errorsPre := [] }
      = ([[("text", " ")], [("text", "T")]].filter emptyRecord).length :=
  (claim_C3 ["Front", "Back"] [] [[("text", " ")], [("text", "T")]] true "comment"
    (fun _ => ⟨Except.ok [], Except.ok [some 5]⟩)
    { success := 1, fail := 1, errors := ["Skipped 1 empty highlight(s)"],
      reports := [(1, 2), (2, 2)], submitted := [[[("Front", "T"), ("Back", "T")]]],
      notes := [[("Front", "T"), ("Back", "T")]], skipped := 1,
      failPre := 0, errorsPre := [] }
    (by decide) rfl).1

/-- C6: the reported `done` values are monotone (in fact strictly
increasing), the last report equals the number of input records `N` (read
with default 0, so this also covers `N = 0`, where nothing is reported),
`N` is reported exactly once when `N > 0`, and when no record is dropped
as empty the callback fires exactly `⌈N/50⌉` times — once per batch. -/
theorem claim_C6 (avail : List String) (fm : List (String × String))
    (hs : List (List (String × String))) (allowDup : Bool) (fc : String)
    (orc : Nat → BatchResp) (ex : Export)
    (hnoempty : "" ∉ avail)
    (hok : bulk_add_highlights avail fm hs allowDup fc orc = Except.ok ex) :
    (ex.reports.map Prod.fst).Chain' (· ≤ ·)
    ∧ (ex.reports.map Prod.fst).getLastD 0 = hs.length
    ∧ (0 < hs.length → (ex.reports.map Prod.fst).count hs.length = 1)
    ∧ ((∀ h ∈ hs, emptyRecord h = false) → ex.reports.length = (hs.length + 49) / 50) := by
  rcases bulk_ok_destruct hok with ⟨rm, hres, hex⟩
  obtain ⟨hav, hhigh, hcmem, hvals⟩ := resolveMapping_invariants hres
  have hcval := resolveMapping_comment_mem hres
  have hiff := mkNote_isNone_eq_emptyRecord avail rm fc hnoempty hcmem hcval
  subst hex
  have hinv0 : ReportInv ({} : PipeState) := ⟨by simp, by simp, rfl⟩
  have hinvP := prep_ReportInv avail rm fc hs.length hs {} hinv0
  have hinvB := runBatches_ReportInv orc allowDup hs.length
    (chunks50 (hs.foldl (prepStep avail rm fc hs.length) {}).nd) 0
    (hs.foldl (prepStep avail rm fc hs.length) {})
    (chunks50_ne_nil _) hinvP
  have hrep : (exportOf avail rm fc hs allowDup orc).reports
      = (runBatches orc allowDup hs.length
          (chunks50 (hs.foldl (prepStep avail rm fc hs.length) {}).nd) 0
          (hs.foldl (prepStep avail rm fc hs.length) {})).reports := by
    show (finalizeState _).reports = _
    rw [finalizeState_reports]
  have hndlen : (hs.foldl (prepStep avail rm fc hs.length) {}).nd.length
      = (hs.filterMap (mkNote avail rm fc)).length := by
    rw [prep_nd]
    simp
  have hproc : (runBatches orc allowDup hs.length
      (chunks50 (hs.foldl (prepStep avail rm fc hs.length) {}).nd) 0
      (hs.foldl (prepStep avail rm fc hs.length) {})).processed = hs.length := by
    rw [runBatches_processed, chunks50_sum_length, prep_processed, hndlen]
    have hadd := length_filterMap_add_countP_isNone (mkNote avail rm fc) hs
    have hP0 : (({} : PipeState)).processed = 0 := rfl
    rw [hP0]
    omega
  rcases hinvB with ⟨hchain, hle, hlast⟩
  rw [hrep]
  refine ⟨?_, ?_, ?_, ?_⟩
  · exact hchain.imp (fun a b hab => le_of_lt hab)
  · rw [hlast, hproc]
  · intro hN
    set dones := (runBatches orc allowDup hs.length
        (chunks50 (hs.foldl (prepStep avail rm fc hs.length) {}).nd) 0
        (hs.foldl (prepStep avail rm fc hs.length) {})).reports.map Prod.fst with hdones
    have hlastN : dones.getLastD 0 = hs.length := by
      rw [hdones] at hlast ⊢
      rw [hlast, hproc]
    have hne : dones ≠ [] := by
      intro hnil
      rw [hnil] at hlastN
      simp at hlastN
      omega
    have hmemN : hs.length ∈ dones := by
      rcases List.exists_mem_of_ne_nil dones hne with ⟨x, _⟩
      cases hgl : dones.getLast? with
      | none =>
          rw [List.getLast?_eq_none_iff] at hgl
          exact absurd hgl hne
      | some z =>
          have hzl : dones.getLastD 0 = z := by
            rw [List.getLastD_eq_getLast?, hgl]
            rfl
          rcases List.mem_getLast?_eq_getLast
            (show z ∈ dones.getLast? from by rw [hgl]; rfl) with ⟨hne2, heq⟩
          rw [← hlastN, hzl, heq]
          exact List.getLast_mem hne2
    have hnodup : dones.Nodup := by
      have hpw := List.chain'_iff_pairwise.1 hchain
      exact hpw.imp (fun hab => Nat.ne_of_lt hab)
    exact List.count_eq_one_of_mem hnodup hmemN
  · intro hall
    have hzero : hs.countP (fun h => (mkNote avail rm fc h).isNone) = 0 := by
      rw [List.countP_congr (fun x hx => by rw [hiff x])]
      rw [List.countP_eq_zero]
      intro a ha
      simp [hall a ha]
    rw [runBatches_reports_len, prep_reports_len, hzero, chunks50_length, hndlen]
    have hadd := length_filterMap_add_countP_isNone (mkNote avail rm fc) hs
    have hP0 : (({} : PipeState)).reports.length = 0 := rfl
    rw [hP0]
    omega

/-- C6 witness: one record, one batch, one report reaching the total. -/
theorem claim_C6_witness :
    ((Export.reports
        { success := 1, fail := 0, errors := [], reports := [(1, 1)],
          submitted := [[[("Front", "T"), ("Back", "T")]]],
          notes := [[("Front", "T"), ("Back", "T")]], skipped := 0,
          failPre := 0, errorsPre := [] }).map Prod.fst).getLastD 0
      = [[("text", "T")]].length :=
  (claim_C6 ["Front", "Back"] [] [[("text", "T")]] true "comment"
    (fun _ => ⟨Except.ok [], Except.ok [some 1]⟩)
    { success := 1, fail := 0, errors := [], reports := [(1, 1)],
      submitted := [[[("Front", "T"), ("Back", "T")]]],
      notes := [[("Front", "T"), ("Back", "T")]], skipped := 0,
      failPre := 0, errorsPre := [] }
    (by decide) rfl).2.1

/-- C7 counterexample: 2 records, one rejected by the duplicate pre-filter
(already counted as a failure), then the batch submission fails with a
transport error: the failure count rises by the *full* batch size again,
giving 3 failed for 2 records — the duplicate-skipped record *is* counted
a second time, contrary to the claim. -/
theorem claim_C7_counterexample :
    Except.map Export.fail
        (bulk_add_highlights ["Front", "Back"] [] [[("highlight", "H1")], [("highlight", "H2")]]
          false "comment"
          (fun _ => ⟨Except.ok [false, true], Except.error "boom"⟩))
      = Except.ok 3
    ∧ (3 : Nat) ≠ 2 := by
  exact ⟨rfl, by decide⟩

/-- C7 (amended): when `addNotes` raises a transport error on a batch, the
failure count increases by the number of records in the *whole* batch
(over and above the duplicate-skipped records of that batch, which were
already counted by the pre-filter and are thereby counted a second time),
exactly one diagnostic — the raw transport error message — is appended
after the pre-filter's diagnostics, the progress counter still advances by
the full batch, and subsequent batches still proceed. -/
theorem claim_C7 (orc : Nat → BatchResp) (total b : Nat) (st : PipeState)
    (chunk : List (List (String × String) × Debug)) (elig : List Bool) (e : String)
    (hca : (orc b).canAdd = Except.ok elig)
    (har : (orc b).addRes = Except.error e)
    (hne : ((chunk.zip elig).filter (fun pe => pe.2)) ≠ []) :
    (runOneBatch orc false total b st chunk).fail
        = st.fail + ((chunk.zip elig).filter (fun pe => !pe.2)).length + chunk.length
    ∧ (runOneBatch orc false total b st chunk).errors
        = st.errors
          ++ ((chunk.zip elig).filter (fun pe => !pe.2)).map (fun pe => dupMsg b pe.1.2)
          ++ [e]
    ∧ (runOneBatch orc false total b st chunk).processed = st.processed + chunk.length
    ∧ (∀ rest, runBatches orc false total (chunk :: rest) b st
        = runBatches orc false total rest (b + 1) (runOneBatch orc false total b st chunk)) := by
  have hemp : ((((chunk.zip elig).filter (fun pe => pe.2)).map Prod.fst)).isEmpty = false := by
    cases hx : (((chunk.zip elig).filter (fun pe => pe.2)).map Prod.fst).isEmpty with
    | false => rfl
    | true =>
        rw [List.isEmpty_iff, List.map_eq_nil_iff] at hx
        exact absurd hx hne
  have hrun : runOneBatch orc false total b st chunk
      = { st with
          fail := st.fail + ((chunk.zip elig).filter (fun pe => !pe.2)).length + chunk.length,
          processed := st.processed + chunk.length,
          errors := st.errors
            ++ ((chunk.zip elig).filter (fun pe => !pe.2)).map (fun pe => dupMsg b pe.1.2)
            ++ [e],
          reports := st.reports ++ [(st.processed + chunk.length, total)],
          submitted := st.submitted
            ++ [(((chunk.zip elig).filter (fun pe => pe.2)).map Prod.fst).map Prod.fst] } := by
    unfold runOneBatch eligPhase
    simp only [Bool.false_eq_true, if_false, hca]
    rw [prefilter_spec]
    unfold submitPhase
    simp only [hemp, Bool.false_eq_true, if_false, har]
  refine ⟨?_, ?_, ?_, fun rest => rfl⟩
  · rw [hrun]
  · rw [hrun]
  · rw [hrun]

/-- C7 witness: the concrete batch of the counterexample run, checked
against the general statement. -/
theorem claim_C7_witness :
    (runOneBatch (fun _ => ⟨Except.ok [false, true], Except.error "boom"⟩) false 2 0
        { nd := [([("Front", "H1")], default), ([("Front", "H2")], default)] }
        [([("Front", "H1")], default), ([("Front", "H2")], default)]).fail
      = 0 + (([([("Front", "H1")], (default : Debug)), ([("Front", "H2")], default)].zip
          [false, true]).filter (fun pe => !pe.2)).length + 2 :=
  (claim_C7 (fun _ => ⟨Except.ok [false, true], Except.error "boom"⟩) 2 0
    { nd := [([("Front", "H1")], default), ([("Front", "H2")], default)] }
    [([("Front", "H1")], default), ([("Front", "H2")], default)]
    [false, true] "boom" rfl rfl (by decide)).1

/-- C10 counterexample: with live fields `["A", "B"]` and front-content
policy `"highlight"`, the submitted payload gains literal `Front` and
`Back` keys that are not model fields: its key list is
`["A", "B", "Front", "Back"]`, not `["A", "B"]`. -/
theorem claim_C10_counterexample :
    Except.map (fun ex => ex.notes.map dkeys)
        (bulk_add_highlights ["A", "B"] [] [[("highlight", "H")]] true "highlight"
          (fun _ => ⟨Except.ok [], Except.ok [some 1]⟩))
      = Except.ok [["A", "B", "Front", "Back"]]
    ∧ (["A", "B", "Front", "Back"] : List String) ≠ ["A", "B"] := by
  exact ⟨rfl, by decide⟩

/-- C10 (amended): under the default `"comment"` front-content policy,
every payload materialized by `bulk_add_highlights` has exactly the model's
live field list as its keys; under the `"highlight"` policy the payload may
additionally acquire the literal `Front`/`Back` keys. -/
theorem claim_C10 (avail : List String) (fm : List (String × String))
    (hs : List (List (String × String))) (allowDup : Bool)
    (orc : Nat → BatchResp) (ex : Export)
    (hnodup : avail.Nodup)
    (hok : bulk_add_highlights avail fm hs allowDup "comment" orc = Except.ok ex) :
    ∀ payload ∈ ex.notes, dkeys payload = avail := by
  rcases bulk_ok_destruct hok with ⟨rm, hres, hex⟩
  obtain ⟨hav, hhigh, hcmem, hvals⟩ := resolveMapping_invariants hres
  have hcval := resolveMapping_comment_mem hres
  have hhval := resolveMapping_highlight_mem hres
  subst hex
  intro payload hpay
  have hpay' : payload ∈ (hs.foldl (prepStep avail rm "comment" hs.length) {}).nd.map Prod.fst :=
    hpay
  rw [prep_nd] at hpay'
  simp only [List.nil_append] at hpay'
  rcases List.mem_map.1 hpay' with ⟨nd, hnd, hfst⟩
  rcases List.mem_filterMap.1 hnd with ⟨h, _, hmk⟩
  obtain ⟨p, dbg⟩ := nd
  simp only [] at hfst
  subst hfst
  exact mkNote_keys avail rm h hnodup hav hcval hhval hmk

/-- C10 witness: a two-field schema under the `"comment"` policy. -/
theorem claim_C10_witness :
    dkeys [("Front", "H"), ("Back", "H")] = ["Front", "Back"] :=
  claim_C10 ["Front", "Back"] [] [[("highlight", "H")]] true
    (fun _ => ⟨Except.ok [], Except.ok [some 1]⟩)
    { success := 1, fail := 0, errors := [], reports := [(1, 1)],
      submitted := [[[("Front", "H"), ("Back", "H")]]],
      notes := [[("Front", "H"), ("Back", "H")]], skipped := 0,
      failPre := 0, errorsPre := [] }
    (by decide) rfl [("Front", "H"), ("Back", "H")] (by decide)

/-- C8: against a schema whose field list already contains every desired
field, `ensure_makhfouz_model` computes an empty missing-fields set and
issues no field-add call (hence a second identical invocation issues none
either — the function is deterministic in its fetched inputs); and no
invocation, on any inputs, ever issues a field-removal or card-deletion
call. -/
theorem claim_C8 (mr : Option (List String)) (existing : List String)
    (hconf : ∀ f ∈ desiredFields, f ∈ existing) :
    desiredFields.filter (fun f => ¬ existing.contains f) = []
    ∧ (∀ n, MCall.addField n ∉ ensure_makhfouz_model mr (some existing))
    ∧ (∀ mr2 fr2, (∀ n, MCall.removeField n ∉ ensure_makhfouz_model mr2 fr2)
        ∧ MCall.deleteCards ∉ ensure_makhfouz_model mr2 fr2) := by
  have hmiss : desiredFields.filter (fun f => ¬ existing.contains f) = [] := by
    rw [List.filter_eq_nil_iff]
    intro f hf
    simp [hconf f hf]
  refine ⟨hmiss, ?_, ?_⟩
  · intro n hmem
    unfold ensure_makhfouz_model at hmem
    by_cases hm : ((mr.getD []).contains "Makhfouz Highlight")
    · rw [if_pos hm] at hmem
      simp only [hmiss, List.map_nil, List.nil_append] at hmem
      simp at hmem
    · rw [if_neg hm] at hmem
      simp at hmem
  · intro mr2 fr2
    constructor
    · intro n hmem
      unfold ensure_makhfouz_model at hmem
      by_cases hm : ((mr2.getD []).contains "Makhfouz Highlight")
      · rw [if_pos hm] at hmem
        cases fr2 with
        | none => simp at hmem
        | some existing2 =>
            simp only [] at hmem
            rcases List.mem_append.1 hmem with h | h
            · rcases List.mem_map.1 h with ⟨f, _, hf⟩
              exact absurd hf (by simp)
            · simp at h
      · rw [if_neg hm] at hmem
        simp at hmem
    · intro hmem
      unfold ensure_makhfouz_model at hmem
      by_cases hm : ((mr2.getD []).contains "Makhfouz Highlight")
      · rw [if_pos hm] at hmem
        cases fr2 with
        | none => simp at hmem
        | some existing2 =>
            simp only [] at hmem
            rcases List.mem_append.1 hmem with h | h
            · rcases List.mem_map.1 h with ⟨f, _, hf⟩
              exact absurd hf (by simp)
            · simp at h
      · rw [if_neg hm] at hmem
        simp at hmem

/-- C8 witness: a schema holding exactly the desired fields. -/
theorem claim_C8_witness :
    desiredFields.filter (fun f => ¬ desiredFields.contains f) = []
    ∧ ∀ n, MCall.addField n ∉ ensure_makhfouz_model (some ["Makhfouz Highlight"])
        (some desiredFields) :=
  ⟨(claim_C8 (some ["Makhfouz Highlight"]) desiredFields (fun _ hf => hf)).1,
   (claim_C8 (some ["Makhfouz Highlight"]) desiredFields (fun _ hf => hf)).2.1⟩

/-- C9 (the claim is right, the code is wrong): `_extract_highlights` is
*not* exception-safe for malformed data.  Its new-format branch has no
exception handling at all: a book whose `annotations` entry is not a
container (here the integer 7) raises `TypeError` out of the function,
for every value of the display flag and every behavior of the old-format
getter.  Only the old-format branch is guarded: the same malformation in
the `highlight` entry contributes zero highlights without raising. -/
theorem claim_C9 (showRefPg : Bool)
    (oldGet : PyVal → PyVal → PyVal → Except PyErr (Option PyVal)) :
    extract_highlights showRefPg oldGet
        (PyVal.pdict [(PyVal.pstr "annotations", PyVal.pint 7)])
      = Except.error PyErr.typeError
    ∧ extract_highlights showRefPg oldGet
        (PyVal.pdict [(PyVal.pstr "highlight", PyVal.pint 5)])
      = Except.ok [] := ⟨rfl, rfl⟩

end Mahfouz
